import Mathlib

/-!
Verification of the dispatch core of the `circuits` event framework
(`circuits/core/manager.py`) through a shallow embedding in Lean.

Each section embeds one slice of the `Manager` class:

* `Circuits.Reg` — `addHandler` / `removeHandler` and the handler
  registry (`_globals`, `_handlers`, the attribute stored on the manager).
* `Circuits.StopM` — `stop()` and its queue-cleaning pass.
* `Circuits.Sorting` — `_sortkey` and the descending sort of resolved
  handlers performed by `_dispatcher`.
* `Circuits.Dispatch` — the `_dispatcher` invocation loop: error capture,
  `Failure`/`Error` events, generator registration and the filter break.
* `Circuits.Resolve` — `getHandlers` over the component tree.
* `Circuits.Tasks` — `processTask` and the `waitingHandlers` bookkeeping.
* `Circuits.Causation` — `_fire`'s cause/effects tracking and the
  `_eventDone` completion walk, as a small-step machine over the queue.

Python `set`s are modelled as duplicate-free lists built with guarded
insertion, `dict`s as association lists, object identity as numeric tags,
and exceptions as `Except`.
-/

namespace Circuits

/-- Decidable equality of `Except` results, so that concrete outcomes of
the fallible operations can be evaluated. -/
instance {ε α : Type} [DecidableEq ε] [DecidableEq α] : DecidableEq (Except ε α) := fun x y =>
  match x, y with
  | .ok a, .ok b =>
    if h : a = b then .isTrue (congrArg Except.ok h)
    else .isFalse (fun hc => h (Except.ok.inj hc))
  | .ok _, .error _ => .isFalse (fun hc => Except.noConfusion hc)
  | .error _, .ok _ => .isFalse (fun hc => Except.noConfusion hc)
  | .error e, .error f =>
    if h : e = f then .isTrue (congrArg Except.error h)
    else .isFalse (fun hc => h (Except.error.inj hc))

/-- Association-list lookup, modelling a Python `dict` access that yields
`none` when the key is absent. -/
def alookup {α : Type} : List (String × α) → String → Option α
  | [], _ => none
  | (k, v) :: rest, key => if k = key then some v else alookup rest key

/-- Association-list assignment, modelling `d[key] = v`: overwrite an
existing binding in place, otherwise append a new one. -/
def aset {α : Type} : List (String × α) → String → α → List (String × α)
  | [], key, v => [(key, v)]
  | (k, w) :: rest, key, v =>
    if k = key then (k, v) :: rest else (k, w) :: aset rest key v

/-- Association-list deletion, modelling `del d[key]` (and a tolerated
`delattr`): remove the binding when present, otherwise leave the list
unchanged. -/
def aerase {α : Type} : List (String × α) → String → List (String × α)
  | [], _ => []
  | (k, w) :: rest, key => if k = key then rest else (k, w) :: aerase rest key

namespace Reg

/-- A handler as held by the registry.  `hname` is the bound method's
`__name__` (the attribute key the manager stores it under), `names` the
handler's event names (empty means unnamed), `channel` its channel
attribute (`none` when unset), and `hid` an identity tag distinguishing
distinct callables. -/
structure RHandler where
  hname : String
  names : List String
  channel : Option String
  hid : Nat
deriving DecidableEq

/-- `set.add`: append the element unless it is already present. -/
def sadd (s : List RHandler) (h : RHandler) : List RHandler :=
  if h ∈ s then s else s ++ [h]

/-- The observable registry state of one manager: the `_globals` set, the
`_handlers` map from event name to handler bucket, and the attributes the
manager carries (attribute name to handler identity).  The root handler
cache is cleared by every mutation and is outside the observable state the
round-trip claim ranges over. -/
structure Registry where
  globals : List RHandler
  handlers : List (String × List RHandler)
  attrs : List (String × Nat)
deriving DecidableEq

/-- The empty registry of a fresh manager. -/
def emptyRegistry : Registry := ⟨[], [], []⟩

/-- `self._handlers.setdefault(name, set()).add(method)`. -/
def bucketAdd (hs : List (String × List RHandler)) (k : String) (h : RHandler) :
    List (String × List RHandler) :=
  match alookup hs k with
  | some s => aset hs k (sadd s h)
  | none => aset hs k (sadd [] h)

/-- `addHandler` (manager.py lines 249-265): store the bound method as an
attribute, then file it under `_globals` (unnamed, channel `"*"`), the
`"*"` bucket (unnamed otherwise) or one bucket per name. -/
def addHandler (r : Registry) (h : RHandler) : Registry :=
  let r1 : Registry := { r with attrs := aset r.attrs h.hname h.hid }
  if h.names = [] ∧ h.channel = some "*" then
    { r1 with globals := sadd r1.globals h }
  else if h.names = [] then
    { r1 with handlers := bucketAdd r1.handlers "*" h }
  else
    h.names.foldl (fun acc n => { acc with handlers := bucketAdd acc.handlers n h }) r1

/-- One iteration of `removeHandler`'s loop body for a single name:
`self._handlers[name].remove(method)` raises `KeyError` when the bucket is
absent or the handler is not in it; when the bucket empties it is deleted
and `delattr` is attempted, with `AttributeError` silently tolerated. -/
def removeOne (r : Registry) (h : RHandler) (n : String) : Except Unit Registry :=
  match alookup r.handlers n with
  | none => .error ()
  | some s =>
    if h ∈ s then
      let s2 := s.erase h
      if s2 = [] then
        .ok { r with handlers := aerase r.handlers n, attrs := aerase r.attrs h.hname }
      else
        .ok { r with handlers := aset r.handlers n s2 }
    else .error ()

/-- `removeHandler` (manager.py lines 267-288): with no `event` argument the
loop runs over `method.names`; with one it runs over that single name. -/
def removeHandler (r : Registry) (h : RHandler) (event : Option String) :
    Except Unit Registry :=
  let names := match event with | none => h.names | some e => [e]
  names.foldlM (fun acc n => removeOne acc h n) r

end Reg

namespace StopM

/-- An entry of the root event queue as appended by `_fire`: the pair
`(event, channel)`.  `genEvent` records whether the event component is a
`GenerateEvents` instance, `stoppedEvent` whether it is the `Stopped`
event, and `tag` distinguishes entries. -/
structure QEntry where
  genEvent : Bool
  stoppedEvent : Bool
  tag : Nat
deriving DecidableEq

/-- `isinstance(evt, GenerateEvents)` as evaluated by `stop` on a queue
element: the element is an `(event, channel)` tuple, and a tuple is never
an instance of `GenerateEvents`, so the test is false for every entry,
whatever event the entry holds. -/
def isinstanceGenerateEvents (_e : QEntry) : Bool := false

/-- The entry appended by `self.fire(Stopped(self))`. -/
def stoppedEntry : QEntry := ⟨false, true, 0⟩

/-- The manager state `stop` operates on: the running flag, the event
queue, and a count of the ticks run so far.  Tick processing itself is
outside this model; `stop`'s three closing `tick()` calls are recorded in
the counter. -/
structure MState where
  running : Bool
  queue : List QEntry
  ticksRun : Nat
deriving DecidableEq

/-- `stop` (manager.py lines 550-572): return at once unless running,
otherwise clear the flag, rebuild the queue keeping every entry `evt` with
`not isinstance(evt, GenerateEvents)`, fire `Stopped` and run three more
ticks. -/
def stop (s : MState) : MState :=
  if s.running = false then s
  else
    { running := false
      queue := s.queue.filter (fun e => !isinstanceGenerateEvents e) ++ [stoppedEntry]
      ticksRun := s.ticksRun + 3 }

end StopM

namespace Sorting

/-- The fields of a handler that `_sortkey` reads, plus an identity tag. -/
structure SHandler where
  priority : Int
  filter : Bool
  hid : Nat
deriving DecidableEq

/-- `_sortkey` (manager.py lines 28-29): the pair
`(handler.priority, handler.filter)`. -/
def _sortkey (h : SHandler) : Int × Bool := (h.priority, h.filter)

/-- Python `<` on `bool`: `False < True`. -/
def bLT (a b : Bool) : Bool := !a && b

/-- Python `<=` on `bool`. -/
def bLE (a b : Bool) : Bool := !a || b

/-- Python `<` on `(int, bool)` tuples: lexicographic. -/
def keyLT (a b : Int × Bool) : Bool :=
  decide (a.1 < b.1) || (decide (a.1 = b.1) && bLT a.2 b.2)

/-- Python `<=` on `(int, bool)` tuples: lexicographic. -/
def keyLE (a b : Int × Bool) : Bool :=
  decide (a.1 < b.1) || (decide (a.1 = b.1) && bLE a.2 b.2)

/-- Python `>` on `(int, bool)` tuples. -/
def keyGT (a b : Int × Bool) : Bool := keyLT b a

/-- Python `>=` on `(int, bool)` tuples. -/
def keyGE (a b : Int × Bool) : Bool := keyLE b a

/-- Stable descending insertion: place `h` before the first element `x`
with `_sortkey h ≥ _sortkey x`.  Since `sortDesc` inserts earlier elements
into the sorted tail, equal keys keep the earlier element first, matching
the stability of Python's `sorted`. -/
def insertDesc (h : SHandler) : List SHandler → List SHandler
  | [] => [h]
  | x :: xs =>
    if keyGE (_sortkey h) (_sortkey x) = true then h :: x :: xs
    else x :: insertDesc h xs

/-- `sorted(chain(*h), key=_sortkey, reverse=True)` (manager.py line 453):
a stable sort by `_sortkey`, descending. -/
def sortDesc : List SHandler → List SHandler
  | [] => []
  | x :: xs => insertDesc x (sortDesc xs)

end Sorting

namespace Dispatch

/-- Shape and truthiness of a value a handler produces: Python `None`, a
generator object (always truthy), any other object together with its
truthiness, or a captured `(etype, evalue, traceback)` triple (a non-empty
tuple, hence truthy).  `g` and `e` are identity tags. -/
inductive DVal where
  | vnone
  | vgen (g : Nat)
  | vplain (truthy : Bool)
  | verr (e : Nat)
deriving DecidableEq

/-- Python truthiness of a handler value. -/
def truthy : DVal → Bool
  | .vnone => false
  | .vgen _ => true
  | .vplain t => t
  | .verr _ => true

/-- What invoking one handler does: return a value, raise an exception
other than `KeyboardInterrupt`/`SystemExit`, or raise one of those two
fatal interrupts. -/
inductive HRes where
  | ret (v : DVal)
  | raiseNonfatal (e : Nat)
  | raiseFatal
deriving DecidableEq

/-- The handler fields the invocation loop reads, plus an identity tag. -/
structure DHandler where
  filter : Bool
  hid : Nat
deriving DecidableEq

/-- Events fired from inside the invocation loop: `Failure(event, error)`
on the event's channels, and `Error(etype, evalue, traceback, handler)`. -/
inductive FiredEvt where
  | failureEvt (e : Nat)
  | errorEvt (e : Nat) (hid : Nat)
deriving DecidableEq

/-- The state the `_dispatcher` loop threads through its iterations:
`event.value.errors`, `event.value.value`, `event.waitingHandlers`, the
registered task generators, `event.value.promise`, the events fired so
far, and the handlers invoked so far (in order). -/
structure DState where
  errors : Bool
  val : DVal
  waitingHandlers : Nat
  tasks : List Nat
  promise : Bool
  fired : List FiredEvt
  invoked : List Nat
deriving DecidableEq

/-- The dispatcher state before the first handler runs. -/
def dInit : DState := ⟨false, .vnone, 0, [], false, [], []⟩

/-- One iteration of the `_dispatcher` handler loop (manager.py lines
459-491) for handler `h` whose invocation behaves as `res`, given
`event.failure = failureFlag`.  Fatal interrupts re-raise (`Except.error`);
a non-fatal exception is captured as a triple that becomes the handler's
value, sets `event.value.errors`, fires `Failure` when the event opted in
and always fires `Error`.  The returned flag is true when
`value and handler.filter` breaks the loop. -/
def invokeOne (failureFlag : Bool) (h : DHandler) (res : HRes) (st : DState) :
    Except Unit (DState × Bool) :=
  match res with
  | .raiseFatal => .error ()
  | .raiseNonfatal e =>
    let st1 : DState :=
      { st with
        errors := true
        fired := st.fired ++ (if failureFlag then [FiredEvt.failureEvt e] else [])
                  ++ [FiredEvt.errorEvt e h.hid]
        invoked := st.invoked ++ [h.hid]
        val := DVal.verr e }
    .ok (st1, truthy (DVal.verr e) && h.filter)
  | .ret v =>
    let st1 : DState := { st with invoked := st.invoked ++ [h.hid] }
    let st2 : DState :=
      match v with
      | .vgen g =>
        { st1 with
          waitingHandlers := st1.waitingHandlers + 1
          promise := true
          tasks := st1.tasks ++ [g] }
      | .vnone => st1
      | w => { st1 with val := w }
    .ok (st2, truthy v && h.filter)

/-- The `for handler in handlers` loop of `_dispatcher`: run `invokeOne`
for each handler in order, stopping early when the filter break fires and
propagating fatal interrupts. -/
def dispatchLoop (failureFlag : Bool) : List (DHandler × HRes) → DState → Except Unit DState
  | [], st => .ok st
  | (h, res) :: rest, st =>
    match invokeOne failureFlag h res st with
    | .error _ => .error ()
    | .ok (st1, brk) => if brk then .ok st1 else dispatchLoop failureFlag rest st1

end Dispatch

namespace Resolve

/-- A handler as seen by `getHandlers`: its `channel` attribute (`none`
when unset or falsy), whether it is a bound method carrying `__self__`,
the `channel` attribute of that owner (`none` when absent), and an
identity tag. -/
structure GHandler where
  channel : Option String
  hasSelfAttr : Bool
  selfChannel : Option String
  hid : Nat
deriving DecidableEq

/-- The effective channel of a handler (manager.py lines 230-235):
`handler.channel` when truthy, else the owner's `channel` attribute for a
bound method, else none. -/
def handlerChannel (h : GHandler) : Option String :=
  match h.channel with
  | some c => some c
  | none => if h.hasSelfAttr then h.selfChannel else none

/-- The channel argument as the `getHandlers` body sees it after the
delegation test: the wildcard string, a plain string, or a manager
instance equal to `self` (`channel_is_instance` true). -/
inductive RChan where
  | star
  | str (s : String)
  | instSelf
deriving DecidableEq

/-- The membership test of manager.py lines 237-238:
`channel == "*" or handler_channel in ("*", channel) or channel_is_instance`. -/
def matchesChannel (h : GHandler) : RChan → Bool
  | .star => true
  | .str s => handlerChannel h == some "*" || handlerChannel h == some s
  | .instSelf => true

/-- A component tree: identity tag, the `_handlers` map (the `"*"` key
holds the name-wildcard bucket), the `_globals` set, and the child
components. -/
inductive MTree where
  | node (mid : Nat) (handlers : List (String × List GHandler))
      (globalsH : List GHandler) (kids : List MTree)

/-- The identity of a manager, standing in for Python object identity in
the `channel != self` test. -/
def MTree.mid : MTree → Nat
  | .node i _ _ _ => i

/-- The `_handlers` map of a manager. -/
def MTree.hmap : MTree → List (String × List GHandler)
  | .node _ hs _ _ => hs

/-- The `_globals` set of a manager. -/
def MTree.globalsOf : MTree → List GHandler
  | .node _ _ gs _ => gs

/-- The child components of a manager. -/
def MTree.kids : MTree → List MTree
  | .node _ _ _ ks => ks

/-- `self._handlers.get(name, set())`. -/
def bucketOf (hs : List (String × List GHandler)) (name : String) : List GHandler :=
  match alookup hs name with
  | some b => b
  | none => []

mutual

/-- The `getHandlers` body once the delegation test has settled `self`
(manager.py lines 221-247): filter the `"*"` bucket and the name bucket by
the channel test, union in `_globals`, and recurse into child components
unless the channel was a manager instance. -/
def getHandlersLocal : MTree → String → RChan → List GHandler
  | .node _ hs gs kids, name, ch =>
    (bucketOf hs "*" ++ bucketOf hs name).filter (fun h => matchesChannel h ch)
      ++ gs
      ++ (if ch = RChan.instSelf then [] else getHandlersKids kids name ch)

/-- Child recursion of `getHandlers`: the union over `self.components`. -/
def getHandlersKids : List MTree → String → RChan → List GHandler
  | [], _, _ => []
  | m :: ms, name, ch => getHandlersLocal m name ch ++ getHandlersKids ms name ch

end

/-- The channel argument of a `getHandlers` call: the wildcard, a plain
string, or a manager instance used for direct targeting. -/
inductive GChan where
  | star
  | str (s : String)
  | inst (target : MTree)

/-- `getHandlers` (manager.py lines 216-219 plus the body): a
manager-instance channel different from `self` delegates entirely to the
target by calling `target.getHandlers(event, target-as-channel)`; at the
target the channel compares equal to `self`, so the body runs with
`channel_is_instance` true. -/
def getHandlers (m : MTree) (name : String) : GChan → List GHandler
  | .star => getHandlersLocal m name .star
  | .str s => getHandlersLocal m name (.str s)
  | .inst t =>
    if t.mid ≠ m.mid then getHandlersLocal t name .instSelf
    else getHandlersLocal m name .instSelf

end Resolve

namespace Tasks

/-- A tuple registered in `_tasks` for one event: `(event, iterator)` for a
plain suspended handler, or `(event, iterator, parent_iterator)` for the
nested composition built by `callEvent`.  Iterators are identity tags. -/
inductive Task where
  | simple (it : Nat)
  | nested (it : Nat) (parent : Nat)
deriving DecidableEq

/-- The iterator of the task tuple, the `task` argument of `processTask`. -/
def Task.iter : Task → Nat
  | .simple it => it
  | .nested it _ => it

/-- The number of live iterators one task tuple holds. -/
def Task.weight : Task → Nat
  | .simple _ => 1
  | .nested _ _ => 2

/-- The number of live task iterators held by the registered tuples: a
2-tuple holds one iterator, a 3-tuple holds the suspended iterator and its
suspended parent. -/
def iterCount : List Task → Nat
  | [] => 0
  | .simple _ :: ts => 1 + iterCount ts
  | .nested _ _ :: ts => 2 + iterCount ts

/-- `registerTask`: `self._tasks.add(g)` (sets ignore re-insertion). -/
def registerTask (ts : List Task) (t : Task) : List Task :=
  if t ∈ ts then ts else ts ++ [t]

/-- `unregisterTask`: `if g in self._tasks: self._tasks.remove(g)`. -/
def unregisterTask (ts : List Task) (t : Task) : List Task :=
  if t ∈ ts then ts.erase t else ts

/-- The per-event state `processTask` mutates: `event.waitingHandlers` and
the task tuples of this event. -/
structure TEvent where
  waitingHandlers : Int
  tasks : List Task
deriving DecidableEq

/-- What `parent.send(value.value)` does in the `CallValue` branch of
`processTask`: return a fresh generator, return any other value, raise
`StopIteration`, or raise some other exception. -/
inductive SendRes where
  | rgen (g : Nat)
  | rval
  | rstop
  | rraise
deriving DecidableEq

/-- What `task.next()` does in one resumption: yield a `CallValue` (whose
branch then runs `parent.send`, behaving as the payload), yield a fresh
generator, yield a plain value, raise `StopIteration`, or raise some other
exception. -/
inductive NextRes where
  | ycall (pres : SendRes)
  | ygen (g : Nat)
  | yval
  | ystop
  | yraise
deriving DecidableEq

/-- One resumption step of `processTask` (manager.py lines 594-648) on the
registered tuple `t`, whose `next()` behaves as `res`.  The recursive
`processTask` calls in the source (after a nested register) resume the new
iterator and are further steps of this function.  Notable details kept
from the source: the `CallValue` branch unregisters the 3-tuple before
`parent.send`, and a `CallValue` yielded with no parent makes
`parent.send` raise `AttributeError` into the bare `except`; the bare
`except` unregisters only the 2-tuple form `(event, task)` and never
touches `waitingHandlers`; the nested-generator branch also unregisters
only the 2-tuple form. -/
def processTask (ev : TEvent) (t : Task) (res : NextRes) : TEvent :=
  match res with
  | .yval => ev
  | .ygen g =>
    { ev with
      waitingHandlers := ev.waitingHandlers + 1
      tasks := unregisterTask (registerTask ev.tasks (.nested g t.iter)) (.simple t.iter) }
  | .ystop =>
    match t with
    | .simple it =>
      { ev with
        waitingHandlers := ev.waitingHandlers - 1
        tasks := unregisterTask ev.tasks (.simple it) }
    | .nested it p =>
      { ev with
        waitingHandlers := ev.waitingHandlers - 1
        tasks := registerTask (unregisterTask ev.tasks (.nested it p)) (.simple p) }
  | .yraise => { ev with tasks := unregisterTask ev.tasks (.simple t.iter) }
  | .ycall pres =>
    match t with
    | .simple it => { ev with tasks := unregisterTask ev.tasks (.simple it) }
    | .nested it p =>
      let ts1 := unregisterTask ev.tasks (.nested it p)
      match pres with
      | .rgen g => { ev with tasks := registerTask ts1 (.nested g p) }
      | .rval =>
        { ev with
          waitingHandlers := ev.waitingHandlers - 1
          tasks := registerTask ts1 (.simple p) }
      | .rstop =>
        { ev with
          waitingHandlers := ev.waitingHandlers - 1
          tasks := registerTask (unregisterTask ts1 (.nested it p)) (.simple p) }
      | .rraise => { ev with tasks := unregisterTask ts1 (.simple it) }

/-- The dispatcher registering a suspended handler (manager.py lines
483-486): `event.waitingHandlers += 1; self.registerTask((event, value))`. -/
def dispatchRegister (ev : TEvent) (g : Nat) : TEvent :=
  { ev with
    waitingHandlers := ev.waitingHandlers + 1
    tasks := registerTask ev.tasks (.simple g) }

/-- The guard of `_eventDone` (manager.py lines 496-498):
`if event.waitingHandlers: return` — the completion actions run exactly
when the counter, an integer, is not truthy. -/
def eventDoneRuns (waitingHandlers : Int) : Bool :=
  if waitingHandlers ≠ 0 then false else true

/-- The resumption steps among which the `waitingHandlers` accounting is
exact: the iterator neither raises nor yields `CallValue` without a
parent, `parent.send` does not raise an exception other than
`StopIteration`, and a nested generator is yielded only from a 2-tuple
task (a 3-tuple yielding one hits the 2-tuple-only unregister). -/
def goodStep : Task → NextRes → Bool
  | _, .yval => true
  | _, .ystop => true
  | .simple _, .ygen _ => true
  | .nested _ _, .ygen _ => false
  | .nested _ _, .ycall pres => pres ≠ SendRes.rraise
  | .simple _, .ycall _ => false
  | _, .yraise => false

/-- The tuples whose guarded (re-)registration the step performs must be
absent for set insertion to actually grow the set; this is the freshness
side condition of the accounting invariant. -/
def freshOk : Task → NextRes → List Task → Bool
  | .simple it, .ygen g, ts => decide (Task.nested g it ∉ ts)
  | .nested _ p, .ycall pres, ts =>
    match pres with
    | .rgen g => decide (Task.nested g p ∉ ts)
    | .rval => decide (Task.simple p ∉ ts)
    | .rstop => decide (Task.simple p ∉ ts)
    | .rraise => true
  | .nested _ p, .ystop, ts => decide (Task.simple p ∉ ts)
  | _, _, _ => true

end Tasks

namespace Causation

/-- The per-event fields the causation machinery reads and writes:
`complete`, and the dynamically attached `cause`/`effects` pair.
`cause = none` models the `cause` attribute being absent; `effects` models
the `effects` attribute, read only while `cause` is present and reset to
`0` when the attributes are deleted. -/
structure CRec where
  complete : Bool
  cause : Option Nat
  effects : Int
deriving DecidableEq

/-- Pointwise update of the event records, modelling attribute mutation on
the event object with identity `x`. -/
def setRec (recs : Nat → CRec) (x : Nat) (r : CRec) : Nat → CRec :=
  fun y => if y = x then r else recs y

/-- Observable items of a run: the end of an event's dispatch (its
handlers have run and its `_eventDone` walk finished), and the firing of
`Complete(event, value)` for an event. -/
inductive TItem where
  | dispatched (x : Nat)
  | completeFired (x : Nat)
deriving DecidableEq

/-- The machine state: the event records, the pending queue (event
identities, FIFO), the identities already dispatched, and the observable
trace. -/
structure CState where
  recs : Nat → CRec
  queue : List Nat
  dispatchedIds : List Nat
  trace : List TItem

/-- The completion setup of `_dispatcher` (manager.py lines 442-445): when
the event wants completion signalling, make it the root of its own
completion tree unless a cause is already attached, and count the event
itself as one outstanding effect. -/
def dispatchSetup (recs : Nat → CRec) (x : Nat) : Nat → CRec :=
  let r := recs x
  if r.complete then
    let r1 := if r.cause = none then { r with cause := some x } else r
    setRec recs x { r1 with effects := 1 }
  else recs

/-- The same-thread branch of `_fire` (manager.py lines 303-315) for an
event `c` fired from inside a handler of `x`: when the currently handled
event has its `cause` attribute set, the new event records `x` as its
cause, starts with one outstanding effect (itself), and `x` gains one
outstanding effect.  The event is appended to the queue in every case;
only the record updates are modelled here. -/
def fireChild (recs : Nat → CRec) (x c : Nat) : Nat → CRec :=
  if (recs x).cause ≠ none then
    let recs1 := setRec recs c { recs c with cause := some x, effects := 1 }
    setRec recs1 x { recs1 x with effects := (recs1 x).effects + 1 }
  else recs

/-- The causation walk of `_eventDone` (manager.py lines 513-530): while
the current event has a cause attached, retire one outstanding effect; if
effects remain, stop; otherwise fire `Complete` when the event asked for
it, delete the `cause`/`effects` attributes and continue with the cause.
The walk follows the cause chain, whose length the fuel argument bounds;
the self-caused root ends the loop because its attributes were just
deleted.  Returns the updated records and the events for which `Complete`
was fired, in order. -/
def walkDone : (Nat → CRec) → Nat → Nat → (Nat → CRec) × List Nat
  | recs, _, 0 => (recs, [])
  | recs, x, fuel + 1 =>
    match (recs x).cause with
    | none => (recs, [])
    | some c =>
      let e2 := (recs x).effects - 1
      if 0 < e2 then (setRec recs x { recs x with effects := e2 }, [])
      else
        let emits := if (recs x).complete then [x] else []
        let recs2 := setRec recs x { complete := (recs x).complete, cause := none, effects := 0 }
        let out := walkDone recs2 c fuel
        (out.1, emits ++ out.2)

/-- One round of `_flush` for the event at the head of the queue: the
`_dispatcher` completion setup, the handlers firing the event's children
through `_fire` (children joining the queue), and the closing `_eventDone`
walk.  The `Complete`, `Success` and `Done` events fired by `_eventDone`
are emitted with `_currently_handling` already cleared, so they never join
a causation tree; they appear in the trace rather than in the queue. -/
def step (spawn : Nat → List Nat) (s : CState) : CState :=
  match s.queue with
  | [] => s
  | x :: q =>
    let recs1 := dispatchSetup s.recs x
    let recs2 := (spawn x).foldl (fun r c => fireChild r x c) recs1
    let out := walkDone recs2 x (x + 1)
    { recs := out.1
      queue := q ++ spawn x
      dispatchedIds := s.dispatchedIds ++ [x]
      trace := s.trace ++ TItem.dispatched x :: out.2.map TItem.completeFired }

/-- Run the flush loop for at most `fuel` dispatches, stopping when the
queue is empty. -/
def run (spawn : Nat → List Nat) : CState → Nat → CState
  | s, 0 => s
  | s, fuel + 1 =>
    match s.queue with
    | [] => s
    | _ :: _ => run spawn (step spawn s) fuel

/-- The state after the initial `fire` calls: the given events are queued
and no event carries `cause`/`effects` attributes yet. -/
def initState (recs0 : Nat → CRec) (roots : List Nat) : CState :=
  ⟨recs0, roots, [], []⟩

/-- The events an event reaches through the firing structure: itself, and
everything transitively fired below it. -/
inductive Reaches (spawn : Nat → List Nat) : Nat → Nat → Prop where
  | refl (x : Nat) : Reaches spawn x x
  | child (x c y : Nat) : c ∈ spawn x → Reaches spawn c y → Reaches spawn x y

/-- Well-formedness of a run's firing structure: every dispatched event
fires a duplicate-free list of fresh events with strictly larger
identities, each event is fired by at most one parent, and the initially
queued events are distinct and never refired. -/
structure SpawnWF (spawn : Nat → List Nat) (roots : List Nat) : Prop where
  parent_lt : ∀ p c, c ∈ spawn p → p < c
  nodupKids : ∀ p, (spawn p).Nodup
  uniqParent : ∀ p q c, c ∈ spawn p → c ∈ spawn q → p = q
  rootsNodup : roots.Nodup
  rootsNotKid : ∀ r p, r ∈ roots → r ∉ spawn p

/-- An event is tracked while its `cause` attribute is present. -/
def tracked (recs : Nat → CRec) (x : Nat) : Bool := (recs x).cause != none

/-- The number of children of `x` that are still tracked. -/
def trackedKids (spawn : Nat → List Nat) (recs : Nat → CRec) (x : Nat) : Nat :=
  (spawn x).countP (fun c => tracked recs c)

/-- An event has been fired once it sits in the queue or was dispatched. -/
def firedEv (s : CState) (x : Nat) : Prop := x ∈ s.queue ∨ x ∈ s.dispatchedIds

/-- Everything `x` reaches has been dispatched. -/
def subtreeDispatched (spawn : Nat → List Nat) (D : List Nat) (x : Nat) : Prop :=
  ∀ z, Reaches spawn x z → z ∈ D

/-- The record-level invariant of the causation machinery, relative to the
pending set `Q` and the dispatched set `D`.  `ex = some x` marks the one
event whose own pending unit has been transferred to the running
`_eventDone` walk (the surplus the walk is about to retire); between
dispatches `ex = none`.  The fields: tracked events are fired; untracked
events carry no effects; `complete` flags never change; a cause pointer is
either the event itself or its dispatched firing parent; the parent
pointed to by a tracked non-root is still tracked; a self-caused root's
firing parent (if any) is untracked; a tracked event's `effects` counter
equals its pending unit, plus the walk surplus, plus its tracked children;
a tracked dispatched event (other than the surplus holder) keeps at least
one tracked child; and each child of a tracked dispatched event is either
still tracked or fully dispatched together with its subtree. -/
structure MInv (spawn : Nat → List Nat) (flags : Nat → Bool) (Q D : List Nat)
    (ex : Option Nat) (recs : Nat → CRec) : Prop where
  trackedFired : ∀ z, tracked recs z = true → z ∈ Q ∨ z ∈ D
  untrackedZero : ∀ z, tracked recs z = false → (recs z).effects = 0
  flagEq : ∀ z, (recs z).complete = flags z
  causeShape : ∀ z p, (recs z).cause = some p → p = z ∨ (z ∈ spawn p ∧ p ∈ D)
  parentTracked : ∀ z p, (recs z).cause = some p → p ≠ z → tracked recs p = true
  selfRoot : ∀ z p, (recs z).cause = some z → z ∈ spawn p → tracked recs p = false
  effectsEq : ∀ z, tracked recs z = true →
    (recs z).effects = (if z ∈ Q then 1 else 0) + (if ex = some z then 1 else 0)
      + (trackedKids spawn recs z : Int)
  trackedPos : ∀ z, tracked recs z = true → z ∈ D → ex ≠ some z →
    1 ≤ trackedKids spawn recs z
  kidsStatus : ∀ p, tracked recs p = true → p ∈ D → ∀ c, c ∈ spawn p →
    tracked recs c = true ∨ (c ∈ D ∧ subtreeDispatched spawn D c)

/-- The machine invariant of a run: the record invariant plus the shape of
the queue, the dispatched list and the trace. -/
structure Inv (spawn : Nat → List Nat) (flags : Nat → Bool) (roots : List Nat)
    (s : CState) : Prop where
  minv : MInv spawn flags s.queue s.dispatchedIds none s.recs
  queueNodup : s.queue.Nodup
  dispNodup : s.dispatchedIds.Nodup
  disjoint : ∀ x, x ∈ s.queue → x ∉ s.dispatchedIds
  firedSrc : ∀ x, x ∈ s.queue ∨ x ∈ s.dispatchedIds →
    x ∈ roots ∨ ∃ p, p ∈ s.dispatchedIds ∧ x ∈ spawn p
  dispKidsFired : ∀ p, p ∈ s.dispatchedIds → ∀ c, c ∈ spawn p →
    c ∈ s.queue ∨ c ∈ s.dispatchedIds
  queueKidsUnfired : ∀ p, p ∈ s.queue → ∀ c, c ∈ spawn p →
    ¬(c ∈ s.queue ∨ c ∈ s.dispatchedIds)
  traceDisp : ∀ y, s.trace.count (TItem.dispatched y)
    = (if y ∈ s.dispatchedIds then 1 else 0)
  completeCount : ∀ y, s.trace.count (TItem.completeFired y)
    = (if flags y = true ∧ y ∈ s.dispatchedIds ∧ tracked s.recs y = false then 1 else 0)
  traceOrder : ∀ y t1 t2, s.trace = t1 ++ TItem.completeFired y :: t2 →
    ∀ z, Reaches spawn y z → TItem.dispatched z ∈ t1

end Causation

/-! ### Association-list lemmas -/

theorem alookup_aset_self {α : Type} (m : List (String × α)) (k : String) (v : α) :
    alookup (aset m k v) k = some v := by
  induction m with
  | nil => simp [aset, alookup]
  | cons p rest ih =>
    by_cases h : p.1 = k
    · simp [aset, h, alookup]
    · simp [aset, h, alookup, ih]

theorem alookup_aset_ne {α : Type} (m : List (String × α)) (k k' : String) (v : α)
    (h : k' ≠ k) : alookup (aset m k v) k' = alookup m k' := by
  induction m with
  | nil => simp [aset, alookup, Ne.symm h]
  | cons p rest ih =>
    by_cases hp : p.1 = k
    · simp [aset, hp, alookup, Ne.symm h]
    · by_cases hp' : p.1 = k'
      · simp [aset, hp, alookup, hp', h]
      · simp [aset, hp, alookup, hp', ih]

theorem aerase_aset_none {α : Type} (m : List (String × α)) (k : String) (v : α)
    (h : alookup m k = none) : aerase (aset m k v) k = m := by
  induction m with
  | nil => simp [aset, aerase]
  | cons p rest ih =>
    by_cases hp : p.1 = k
    · simp [alookup, hp] at h
    · simp [alookup, hp] at h
      simp [aset, hp, aerase, ih h]

theorem aerase_absent {α : Type} (m : List (String × α)) (k : String)
    (h : alookup m k = none) : aerase m k = m := by
  induction m with
  | nil => simp [aerase]
  | cons p rest ih =>
    by_cases hp : p.1 = k
    · simp [alookup, hp] at h
    · simp [alookup, hp] at h
      simp [aerase, hp, ih h]

theorem alookup_aerase_ne {α : Type} (m : List (String × α)) (k n : String)
    (h : k ≠ n) : alookup (aerase m n) k = alookup m k := by
  induction m with
  | nil => simp [aerase]
  | cons p rest ih =>
    by_cases hpn : p.1 = n
    · have : ¬(p.1 = k) := by rw [hpn]; exact Ne.symm h
      simp [aerase, hpn, alookup, this, Ne.symm h]
    · by_cases hpk : p.1 = k
      · simp [aerase, hpn, alookup, hpk, h]
      · simp [aerase, hpn, alookup, hpk, ih]

theorem aerase_aset_comm {α : Type} (m : List (String × α)) (k n : String) (v : α)
    (h : k ≠ n) : aerase (aset m k v) n = aset (aerase m n) k v := by
  induction m with
  | nil => simp [aset, aerase, h]
  | cons p rest ih =>
    by_cases hp : p.1 = k
    · have hpn : ¬(p.1 = n) := by rw [hp]; exact h
      simp [aset, aerase, hp, hpn, h]
    · by_cases hpn : p.1 = n
      · simp [aset, aerase, hp, hpn, Ne.symm h]
      · simp [aset, aerase, hp, hpn, ih]

namespace Reg

/-- Unfolding the `addHandler` name loop to a fold over the handler map. -/
theorem addFold_eq (h : RHandler) : ∀ (ns : List String) (r : Registry),
    ns.foldl (fun acc n => { acc with handlers := bucketAdd acc.handlers n h }) r
      = { r with handlers := ns.foldl (fun m n => bucketAdd m n h) r.handlers } := by
  intro ns
  induction ns with
  | nil => intro r; rfl
  | cons n rest ih => intro r; simp [List.foldl_cons, ih]

theorem alookup_foldl_bucketAdd_ne (h : RHandler) :
    ∀ (ms : List String) (m : List (String × List RHandler)) (k : String), k ∉ ms →
    alookup (ms.foldl (fun acc n => bucketAdd acc n h) m) k = alookup m k := by
  intro ms
  induction ms with
  | nil => intro m k _; rfl
  | cons n rest ih =>
    intro m k hk
    simp only [List.mem_cons, not_or] at hk
    rw [List.foldl_cons, ih _ _ hk.2]
    unfold bucketAdd
    cases alookup m n with
    | none => exact alookup_aset_ne _ _ _ _ hk.1
    | some s => exact alookup_aset_ne _ _ _ _ hk.1

theorem aerase_foldl_bucketAdd_comm (h : RHandler) :
    ∀ (ms : List String) (m : List (String × List RHandler)) (n : String), n ∉ ms →
    aerase (ms.foldl (fun acc k => bucketAdd acc k h) m) n
      = ms.foldl (fun acc k => bucketAdd acc k h) (aerase m n) := by
  intro ms
  induction ms with
  | nil => intro m n _; rfl
  | cons k rest ih =>
    intro m n hn
    simp only [List.mem_cons, not_or] at hn
    rw [List.foldl_cons, ih _ _ hn.2, List.foldl_cons]
    congr 1
    unfold bucketAdd
    rw [alookup_aerase_ne]
    · cases alookup m k with
      | none => exact aerase_aset_comm _ _ _ _ (Ne.symm hn.1)
      | some s => exact aerase_aset_comm _ _ _ _ (Ne.symm hn.1)
    · exact Ne.symm hn.1

end Reg

namespace Reg

theorem sadd_nil (h : RHandler) : sadd [] h = [h] := by simp [sadd]

/-- Removing the names one by one undoes a fold of fresh single-handler
bucket insertions, and erases the attribute binding at the first emptied
bucket (later `delattr` attempts are tolerated no-ops). -/
theorem removeAdd_fold (h : RHandler) :
    ∀ (ns : List String) (g0 : List RHandler)
      (handlers0 : List (String × List RHandler)) (att : List (String × Nat)),
    ns.Nodup → (∀ n ∈ ns, alookup handlers0 n = none) →
    aerase (aerase att h.hname) h.hname = aerase att h.hname →
    List.foldlM (fun acc n => removeOne acc h n)
      (Registry.mk g0 (ns.foldl (fun m n => bucketAdd m n h) handlers0) att) ns
      = .ok (Registry.mk g0 handlers0 (if ns = [] then att else aerase att h.hname)) := by
  intro ns
  induction ns with
  | nil => intro g0 handlers0 att _ _ _; rfl
  | cons n rest ih =>
    intro g0 handlers0 att hnd hfresh hstable
    have hn : n ∉ rest := (List.nodup_cons.mp hnd).1
    have hrest : rest.Nodup := (List.nodup_cons.mp hnd).2
    have hn0 : alookup handlers0 n = none := hfresh n (List.mem_cons_self n rest)
    have hbadd : bucketAdd handlers0 n h = aset handlers0 n [h] := by
      simp [bucketAdd, hn0, sadd_nil]
    rw [List.foldl_cons, List.foldlM_cons, hbadd]
    have hlook : alookup (rest.foldl (fun m k => bucketAdd m k h) (aset handlers0 n [h])) n
        = some [h] := by
      rw [alookup_foldl_bucketAdd_ne h rest _ n hn, alookup_aset_self]
    have hrw : removeOne (Registry.mk g0
          (rest.foldl (fun m k => bucketAdd m k h) (aset handlers0 n [h])) att) h n
        = .ok (Registry.mk g0 (rest.foldl (fun m k => bucketAdd m k h) handlers0)
            (aerase att h.hname)) := by
      simp only [removeOne, hlook]
      rw [aerase_foldl_bucketAdd_comm h rest _ n hn, aerase_aset_none _ _ _ hn0]
      simp
    rw [hrw]
    have hfresh2 : ∀ k ∈ rest, alookup handlers0 k = none :=
      fun k hk => hfresh k (List.mem_cons_of_mem n hk)
    have hstable2 : aerase (aerase (aerase att h.hname) h.hname) h.hname
        = aerase (aerase att h.hname) h.hname := by rw [hstable, hstable]
    have := ih g0 handlers0 (aerase att h.hname) hrest hfresh2 hstable2
    simp only [bind, Except.bind]
    rw [this]
    rcases eq_or_ne rest [] with hre | hre
    · simp [hre]
    · simp [hre, hstable]

/-- Claim C6 (amended, named case): for a handler with a non-empty,
duplicate-free name list, none of whose names has an existing bucket and
whose attribute slot is free, `removeHandler` after `addHandler` restores
the registry exactly. -/
theorem C6_add_remove_named_roundtrip (r : Registry) (h : RHandler)
    (hne : h.names ≠ []) (hnd : h.names.Nodup)
    (hfresh : ∀ n ∈ h.names, alookup r.handlers n = none)
    (hattr : alookup r.attrs h.hname = none) :
    removeHandler (addHandler r h) h none = .ok r := by
  have h1 : ¬(h.names = [] ∧ h.channel = some "*") := fun hc => hne hc.1
  unfold addHandler removeHandler
  rw [if_neg h1, if_neg hne, addFold_eq]
  have hstable : aerase (aerase (aset r.attrs h.hname h.hid) h.hname) h.hname
      = aerase (aset r.attrs h.hname h.hid) h.hname := by
    rw [aerase_aset_none _ _ _ hattr, aerase_absent _ _ hattr]
  have := removeAdd_fold h h.names r.globals r.handlers (aset r.attrs h.hname h.hid)
    hnd hfresh hstable
  simp only at this ⊢
  rw [this, if_neg hne, aerase_aset_none _ _ _ hattr]

/-- Witness for claim C6's amended theorem at a concrete handler. -/
theorem C6_add_remove_named_roundtrip_witness :
    removeHandler (addHandler emptyRegistry ⟨"h", ["foo"], none, 1⟩)
      ⟨"h", ["foo"], none, 1⟩ none = .ok emptyRegistry :=
  C6_add_remove_named_roundtrip emptyRegistry ⟨"h", ["foo"], none, 1⟩
    (by decide) (by decide) (by decide) (by decide)

/-- Claim C6 (counterexample): for an unnamed handler with channel `"*"`
(the `_globals` case), `removeHandler` with no event iterates an empty
name list, so the handler stays registered and the registry is not
restored. -/
theorem C6_counterexample :
    removeHandler (addHandler emptyRegistry ⟨"g", [], some "*", 0⟩)
      ⟨"g", [], some "*", 0⟩ none
      = .ok (addHandler emptyRegistry ⟨"g", [], some "*", 0⟩)
    ∧ addHandler emptyRegistry ⟨"g", [], some "*", 0⟩ ≠ emptyRegistry := by decide

/-- Claim C9 (amended): `removeHandler` with an explicit event raises
`KeyError` both when the bucket is absent and when the handler is not in
the bucket; only the removal of a stale attribute is silently tolerated
(the singleton-bucket case completes whether or not the attribute is
present). -/
theorem C9_remove_unregistered (r : Registry) (h : RHandler) (e : String) :
    (alookup r.handlers e = none → removeHandler r h (some e) = .error ())
    ∧ (∀ s, alookup r.handlers e = some s → h ∉ s →
        removeHandler r h (some e) = .error ())
    ∧ (alookup r.handlers e = some [h] →
        removeHandler r h (some e)
          = .ok ⟨r.globals, aerase r.handlers e, aerase r.attrs h.hname⟩) := by
  refine ⟨?_, ?_, ?_⟩
  · intro hl
    simp [removeHandler, removeOne, hl]
  · intro s hl hmem
    simp [removeHandler, removeOne, hl, hmem]
  · intro hl
    simp [removeHandler, removeOne, hl]

/-- Witness for claim C9's amended theorem: the missing-bucket case raises. -/
theorem C9_remove_unregistered_witness :
    removeHandler ⟨[], [], []⟩ ⟨"h", ["a"], none, 3⟩ (some "zzz") = .error () :=
  (C9_remove_unregistered ⟨[], [], []⟩ ⟨"h", ["a"], none, 3⟩ "zzz").1 (by decide)

/-- Claim C9 (counterexample): removing a handler under a name that has no
bucket raises `KeyError` instead of completing silently. -/
theorem C9_counterexample :
    removeHandler emptyRegistry ⟨"h", ["foo"], none, 1⟩ (some "foo") = .error () := by
  decide

end Reg

namespace StopM

/-- Claim C7 (code bug): on a running manager `stop` clears the flag,
fires `Stopped` and runs three more ticks, but the `GenerateEvents`
cleanup pass keeps every queue entry: the `isinstance` test runs on the
`(event, channel)` tuple, never on the event, so a queued
`GenerateEvents` entry survives, contrary to the claim and to the
cleanup's own comment. -/
theorem C7_stop_keeps_generate_events :
    (stop ⟨true, [⟨true, false, 1⟩, ⟨false, false, 2⟩], 0⟩).running = false
    ∧ (stop ⟨true, [⟨true, false, 1⟩, ⟨false, false, 2⟩], 0⟩).queue
        = [⟨true, false, 1⟩, ⟨false, false, 2⟩, stoppedEntry]
    ∧ (stop ⟨true, [⟨true, false, 1⟩, ⟨false, false, 2⟩], 0⟩).ticksRun = 3 := by decide

end StopM

namespace Sorting

theorem keyLE_total (a b : Int × Bool) : keyLE a b = true ∨ keyLE b a = true := by
  rcases a with ⟨ai, ab⟩
  rcases b with ⟨bi, bb⟩
  simp only [keyLE, bLE, Bool.or_eq_true, Bool.and_eq_true, decide_eq_true_eq]
  cases ab <;> cases bb <;> simp <;> omega

theorem keyLE_trans {a b c : Int × Bool} (h1 : keyLE a b = true) (h2 : keyLE b c = true) :
    keyLE a c = true := by
  rcases a with ⟨ai, ab⟩
  rcases b with ⟨bi, bb⟩
  rcases c with ⟨ci, cb⟩
  simp only [keyLE, bLE, Bool.or_eq_true, Bool.and_eq_true, decide_eq_true_eq] at h1 h2 ⊢
  cases ab <;> cases bb <;> cases cb <;> simp at h1 h2 ⊢ <;> omega

theorem keyGE_total (a b : Int × Bool) : keyGE a b = true ∨ keyGE b a = true :=
  (keyLE_total b a).symm.imp id id |>.symm

theorem keyGE_trans {a b c : Int × Bool} (h1 : keyGE a b = true) (h2 : keyGE b c = true) :
    keyGE a c = true := keyLE_trans h2 h1

theorem insertDesc_perm (h : SHandler) (l : List SHandler) :
    List.Perm (insertDesc h l) (h :: l) := by
  induction l with
  | nil => exact List.Perm.refl _
  | cons x xs ih =>
    unfold insertDesc
    by_cases hc : keyGE (_sortkey h) (_sortkey x) = true
    · rw [if_pos hc]
    · rw [if_neg hc]
      exact (List.Perm.cons x ih).trans (List.Perm.swap h x xs)

theorem sortDesc_perm (l : List SHandler) : List.Perm (sortDesc l) l := by
  induction l with
  | nil => exact List.Perm.refl _
  | cons x xs ih =>
    exact (insertDesc_perm x (sortDesc xs)).trans (List.Perm.cons x ih)

theorem mem_insertDesc {z h : SHandler} {l : List SHandler} :
    z ∈ insertDesc h l ↔ z = h ∨ z ∈ l := by
  rw [(insertDesc_perm h l).mem_iff, List.mem_cons]

theorem pairwise_insertDesc (h : SHandler) (l : List SHandler)
    (hp : l.Pairwise (fun a b => keyGE (_sortkey a) (_sortkey b) = true)) :
    (insertDesc h l).Pairwise (fun a b => keyGE (_sortkey a) (_sortkey b) = true) := by
  induction l with
  | nil => simp [insertDesc]
  | cons x xs ih =>
    rcases List.pairwise_cons.mp hp with ⟨hx, hxs⟩
    unfold insertDesc
    by_cases hc : keyGE (_sortkey h) (_sortkey x) = true
    · rw [if_pos hc]
      refine List.pairwise_cons.mpr ⟨?_, hp⟩
      intro z hz
      rcases List.mem_cons.mp hz with hz | hz
      · rw [hz]; exact hc
      · exact keyGE_trans hc (hx z hz)
    · rw [if_neg hc]
      refine List.pairwise_cons.mpr ⟨?_, ih hxs⟩
      intro z hz
      rcases mem_insertDesc.mp hz with hz | hz
      · rw [hz]
        rcases keyGE_total (_sortkey x) (_sortkey h) with hg | hg
        · exact hg
        · exact absurd hg hc
      · exact hx z hz

/-- Claim C4 (amended): the dispatcher's handler list is a permutation of
the resolved handlers sorted so that `(priority, filter)` keys never
increase along the invocation order; hence a handler whose key is strictly
greater than another's is invoked first, while handlers with equal keys
may appear in either order. -/
theorem C4_sort_spec (l : List SHandler) :
    (sortDesc l).Pairwise (fun a b => keyGE (_sortkey a) (_sortkey b) = true)
    ∧ List.Perm (sortDesc l) l := by
  refine ⟨?_, sortDesc_perm l⟩
  induction l with
  | nil => simp [sortDesc]
  | cons x xs ih => exact pairwise_insertDesc x (sortDesc xs) ih

/-- Claim C4 (counterexample): two handlers with equal `(priority, filter)`
keys; the first is invoked before the second although its key is not
lexicographically greater, refuting the claimed equivalence. -/
theorem C4_counterexample :
    sortDesc [⟨5, false, 0⟩, ⟨5, false, 1⟩] = [⟨5, false, 0⟩, ⟨5, false, 1⟩]
    ∧ keyGT (_sortkey ⟨5, false, 0⟩) (_sortkey ⟨5, false, 1⟩) = false := by decide

end Sorting

namespace Dispatch

theorem invokeOne_invoked {ff : Bool} {h : DHandler} {res : HRes} {st st1 : DState}
    {brk : Bool} (hinv : invokeOne ff h res st = .ok (st1, brk)) :
    st1.invoked = st.invoked ++ [h.hid] := by
  cases res with
  | raiseFatal => simp [invokeOne] at hinv
  | raiseNonfatal e =>
    simp only [invokeOne, Except.ok.injEq, Prod.mk.injEq] at hinv
    rw [← hinv.1]
  | ret v =>
    cases v <;>
      (simp only [invokeOne, Except.ok.injEq, Prod.mk.injEq] at hinv; rw [← hinv.1])

theorem dispatchLoop_invoked_sub (ff : Bool) :
    ∀ (hs : List (DHandler × HRes)) (st st' : DState),
    dispatchLoop ff hs st = .ok st' →
    ∀ i, i ∈ st'.invoked → i ∈ st.invoked ∨ i ∈ hs.map (fun p => p.1.hid) := by
  intro hs
  induction hs with
  | nil =>
    intro st st' hrun i hi
    simp only [dispatchLoop, Except.ok.injEq] at hrun
    rw [← hrun] at hi
    exact Or.inl hi
  | cons p rest ih =>
    rcases p with ⟨h, res⟩
    intro st st' hrun i hi
    simp only [dispatchLoop] at hrun
    cases hinv : invokeOne ff h res st with
    | error e => rw [hinv] at hrun; cases hrun
    | ok pr =>
      rcases pr with ⟨st1, brk⟩
      rw [hinv] at hrun
      have hstinv : st1.invoked = st.invoked ++ [h.hid] := invokeOne_invoked hinv
      cases brk with
      | true =>
        simp only [if_pos, Except.ok.injEq] at hrun
        rw [← hrun] at hi
        rw [hstinv] at hi
        rcases List.mem_append.mp hi with hi | hi
        · exact Or.inl hi
        · simp only [List.mem_singleton] at hi
          right; simp [hi]
      | false =>
        simp only [Bool.false_eq_true, if_false] at hrun
        rcases ih st1 st' hrun i hi with hi2 | hi2
        · rw [hstinv] at hi2
          rcases List.mem_append.mp hi2 with hi2 | hi2
          · exact Or.inl hi2
          · simp only [List.mem_singleton] at hi2
            right; simp [hi2]
        · right; simp [hi2]

/-- When the loop reaches a handler that breaks (its value is truthy and
it is a filter), the handlers after it are irrelevant to the outcome. -/
theorem dispatchLoop_break_drop_post (ff : Bool) (fh : DHandler) (fres : HRes)
    (post : List (DHandler × HRes)) (hfil : fh.filter = true)
    (htru : (match fres with
             | .ret v => truthy v
             | .raiseNonfatal _ => true
             | .raiseFatal => false) = true) :
    ∀ (pre : List (DHandler × HRes)) (st0 : DState),
    dispatchLoop ff (pre ++ (fh, fres) :: post) st0
      = dispatchLoop ff (pre ++ [(fh, fres)]) st0 := by
  intro pre
  induction pre with
  | nil =>
    intro st0
    cases fres with
    | raiseFatal => simp at htru
    | raiseNonfatal e =>
      simp only [List.nil_append, dispatchLoop, invokeOne, truthy, hfil, Bool.and_true]
      simp
    | ret v =>
      simp only at htru
      cases v <;>
        simp only [List.nil_append, dispatchLoop, invokeOne, truthy, hfil, Bool.and_true] <;>
        simp_all [truthy]
  | cons p rest ih =>
    rcases p with ⟨h, res⟩
    intro st0
    simp only [List.cons_append, dispatchLoop]
    cases hinv : invokeOne ff h res st0 with
    | error e => rfl
    | ok pr =>
      rcases pr with ⟨st1, brk⟩
      cases brk with
      | true => rfl
      | false => simp only [Bool.false_eq_true, if_false]; exact ih st1

/-- Claim C3: during dispatch a non-fatal handler exception never
propagates: the loop completes whenever no handler raises a fatal
interrupt; the exception is captured as a triple that becomes the
handler's value, `event.value.errors` is set, `Failure` is fired exactly
when `event.failure` is set and `Error` is always fired; a
`KeyboardInterrupt`/`SystemExit` re-raises out of the loop. -/
theorem C3_error_isolation (ff : Bool) :
    (∀ (hs : List (DHandler × HRes)) (st : DState),
      (∀ p ∈ hs, p.2 ≠ HRes.raiseFatal) → ∃ st', dispatchLoop ff hs st = .ok st')
    ∧ (∀ (h : DHandler) (e : Nat) (st : DState), FiredEvt.failureEvt e ∉ st.fired →
        ∃ st1 brk, invokeOne ff h (.raiseNonfatal e) st = .ok (st1, brk)
          ∧ st1.errors = true
          ∧ st1.val = DVal.verr e
          ∧ ((FiredEvt.failureEvt e ∈ st1.fired) ↔ ff = true)
          ∧ FiredEvt.errorEvt e h.hid ∈ st1.fired)
    ∧ (∀ (h : DHandler) (st : DState), invokeOne ff h HRes.raiseFatal st = .error ()) := by
  refine ⟨?_, ?_, ?_⟩
  · intro hs
    induction hs with
    | nil => intro st _; exact ⟨st, rfl⟩
    | cons p rest ih =>
      rcases p with ⟨h, res⟩
      intro st hnf
      have hhead : res ≠ HRes.raiseFatal := hnf (h, res) (List.mem_cons_self _ _)
      have hrest : ∀ p ∈ rest, p.2 ≠ HRes.raiseFatal :=
        fun p hp => hnf p (List.mem_cons_of_mem _ hp)
      obtain ⟨st1, brk, hinv⟩ :
          ∃ st1 brk, invokeOne ff h res st = .ok (st1, brk) := by
        cases res with
        | raiseFatal => exact absurd rfl hhead
        | raiseNonfatal e => exact ⟨_, _, rfl⟩
        | ret v => cases v <;> exact ⟨_, _, rfl⟩
      simp only [dispatchLoop, hinv]
      cases brk with
      | true => exact ⟨st1, rfl⟩
      | false => exact ih st1 hrest
  · intro h e st hnotin
    refine ⟨_, _, rfl, rfl, rfl, ?_, ?_⟩
    · cases ff <;> simp_all
    · cases ff <;> simp
  · intro h st; rfl

/-- Witness for claim C3's theorem: a loop with no fatal raise completes. -/
theorem C3_error_isolation_witness :
    ∃ st', dispatchLoop true [(⟨true, 0⟩, HRes.raiseNonfatal 7),
      (⟨false, 1⟩, HRes.ret (DVal.vplain true))] dInit = .ok st' :=
  (C3_error_isolation true).1
    [(⟨true, 0⟩, HRes.raiseNonfatal 7), (⟨false, 1⟩, HRes.ret (DVal.vplain true))]
    dInit (by decide)

/-- Claim C5: when a filter handler returns a truthy value, no handler
after it in the sorted order is invoked in that dispatch. -/
theorem C5_filter_short_circuit (ff : Bool) (pre post : List (DHandler × HRes))
    (fh : DHandler) (v : DVal) (st0 st' : DState)
    (hrun : dispatchLoop ff (pre ++ (fh, .ret v) :: post) st0 = .ok st')
    (hfil : fh.filter = true) (htru : truthy v = true)
    (hfresh : ∀ q ∈ post, q.1.hid ∉ st0.invoked
      ∧ q.1.hid ∉ pre.map (fun p => p.1.hid) ∧ q.1.hid ≠ fh.hid) :
    ∀ q ∈ post, q.1.hid ∉ st'.invoked := by
  intro q hq hmem
  rw [dispatchLoop_break_drop_post ff fh (.ret v) post hfil htru] at hrun
  rcases dispatchLoop_invoked_sub ff _ _ _ hrun q.1.hid hmem with hi | hi
  · exact (hfresh q hq).1 hi
  · rw [List.map_append] at hi
    rcases List.mem_append.mp hi with hi | hi
    · exact (hfresh q hq).2.1 hi
    · simp only [List.map_cons, List.map_nil, List.mem_singleton] at hi
      exact (hfresh q hq).2.2 hi

/-- Witness for claim C5's theorem at a concrete dispatch. -/
theorem C5_filter_short_circuit_witness :
    ((⟨false, 1⟩ : DHandler), HRes.ret (DVal.vplain false)).1.hid
      ∉ (DState.mk false (DVal.vplain true) 0 [] false [] [0]).invoked :=
  C5_filter_short_circuit true [] [(⟨false, 1⟩, HRes.ret (DVal.vplain false))]
    ⟨true, 0⟩ (DVal.vplain true) dInit
    (DState.mk false (DVal.vplain true) 0 [] false [] [0])
    (by decide) (by decide) (by decide) (by decide)
    ((⟨false, 1⟩ : DHandler), HRes.ret (DVal.vplain false))
    (List.mem_singleton.mpr rfl)

/-- Claim C10: a filter handler that raises a non-fatal exception gets the
captured triple as its value; the triple is truthy, so the dispatcher
breaks and no later handler is invoked, as if the filter had returned a
truthy value. -/
theorem C10_filter_raise_short_circuit (ff : Bool) (pre post : List (DHandler × HRes))
    (fh : DHandler) (e : Nat) (st0 st' : DState)
    (hrun : dispatchLoop ff (pre ++ (fh, .raiseNonfatal e) :: post) st0 = .ok st')
    (hfil : fh.filter = true)
    (hfresh : ∀ q ∈ post, q.1.hid ∉ st0.invoked
      ∧ q.1.hid ∉ pre.map (fun p => p.1.hid) ∧ q.1.hid ≠ fh.hid) :
    (∀ q ∈ post, q.1.hid ∉ st'.invoked)
    ∧ (∀ st : DState, ∃ st1, invokeOne ff fh (.raiseNonfatal e) st = .ok (st1, true)
        ∧ st1.val = DVal.verr e ∧ st1.errors = true) := by
  constructor
  · intro q hq hmem
    rw [dispatchLoop_break_drop_post ff fh (.raiseNonfatal e) post hfil rfl] at hrun
    rcases dispatchLoop_invoked_sub ff _ _ _ hrun q.1.hid hmem with hi | hi
    · exact (hfresh q hq).1 hi
    · rw [List.map_append] at hi
      rcases List.mem_append.mp hi with hi | hi
      · exact (hfresh q hq).2.1 hi
      · simp only [List.map_cons, List.map_nil, List.mem_singleton] at hi
        exact (hfresh q hq).2.2 hi
  · intro st
    refine ⟨{ st with
        errors := true
        fired := ((st.fired ++ if ff = true then [FiredEvt.failureEvt e] else []) ++ [FiredEvt.errorEvt e fh.hid])
        invoked := st.invoked ++ [fh.hid]
        val := DVal.verr e }, ?_, rfl, rfl⟩
    simp [invokeOne, truthy, hfil]

/-- Witness for claim C10's theorem at a concrete dispatch. -/
theorem C10_filter_raise_short_circuit_witness :
    (((⟨false, 1⟩ : DHandler), HRes.ret (DVal.vplain false)).1.hid
      ∉ (DState.mk true (DVal.verr 7) 0 [] false
        [FiredEvt.failureEvt 7, FiredEvt.errorEvt 7 0] [0]).invoked)
    ∧ (∃ st1, invokeOne true ⟨true, 0⟩ (.raiseNonfatal 7) dInit = .ok (st1, true)
        ∧ st1.val = DVal.verr 7 ∧ st1.errors = true) :=
  have h := C10_filter_raise_short_circuit true []
    [(⟨false, 1⟩, HRes.ret (DVal.vplain false))]
    ⟨true, 0⟩ 7 dInit
    (DState.mk true (DVal.verr 7) 0 [] false
      [FiredEvt.failureEvt 7, FiredEvt.errorEvt 7 0] [0])
    (by decide) (by decide) (by decide)
  ⟨h.1 ((⟨false, 1⟩ : DHandler), HRes.ret (DVal.vplain false))
    (List.mem_singleton.mpr rfl), h.2 dInit⟩

end Dispatch

namespace Resolve

theorem mem_getHandlersKids {h : GHandler} {name : String} {ch : RChan} :
    ∀ (ks : List MTree),
    h ∈ getHandlersKids ks name ch ↔ ∃ c ∈ ks, h ∈ getHandlersLocal c name ch := by
  intro ks
  induction ks with
  | nil => simp [getHandlersKids]
  | cons m ms ih => simp [getHandlersKids, ih]

/-- Claim C8 (amended): for the wildcard and plain-string channel forms,
`getHandlers` unions the manager's own matching buckets and globals with
the children's results; a manager-instance channel different from `self`
delegates to the target, and with `channel_is_instance` true the body
bypasses the channel filter and skips the child recursion, returning only
the target's own buckets and globals. -/
theorem C8_getHandlers_spec :
    (∀ (m : MTree) (name : String) (ch : RChan) (h : GHandler), ch ≠ RChan.instSelf →
      (h ∈ getHandlersLocal m name ch ↔
        ((h ∈ bucketOf m.hmap "*" ∨ h ∈ bucketOf m.hmap name) ∧ matchesChannel h ch = true)
        ∨ h ∈ m.globalsOf
        ∨ ∃ c ∈ m.kids, h ∈ getHandlersLocal c name ch))
    ∧ (∀ (m : MTree) (name : String) (h : GHandler),
        h ∈ getHandlersLocal m name RChan.instSelf ↔
          ((h ∈ bucketOf m.hmap "*" ∨ h ∈ bucketOf m.hmap name) ∨ h ∈ m.globalsOf))
    ∧ (∀ (m t : MTree) (name : String), t.mid ≠ m.mid →
        getHandlers m name (GChan.inst t) = getHandlersLocal t name RChan.instSelf)
    ∧ (∀ (m : MTree) (name : String) (s : String),
        getHandlers m name (GChan.str s) = getHandlersLocal m name (RChan.str s))
    ∧ (∀ (m : MTree) (name : String),
        getHandlers m name GChan.star = getHandlersLocal m name RChan.star) := by
  refine ⟨?_, ?_, ?_, ?_, ?_⟩
  · intro m name ch h hch
    rcases m with ⟨i, hs, gs, ks⟩
    simp only [getHandlersLocal, MTree.hmap, MTree.globalsOf, MTree.kids, if_neg hch,
      List.mem_append, List.mem_filter, mem_getHandlersKids]
    tauto
  · intro m name h
    rcases m with ⟨i, hs, gs, ks⟩
    simp only [getHandlersLocal, MTree.hmap, MTree.globalsOf, if_pos rfl,
      List.mem_append, List.mem_filter, matchesChannel]
    simp
  · intro m t name hne
    simp [getHandlers, hne]
  · intro m name s; rfl
  · intro m name; rfl

/-- Witness for claim C8's amended theorem: the wildcard-channel
characterization at a concrete two-manager tree. -/
theorem C8_getHandlers_spec_witness :
    (⟨none, false, none, 7⟩ : GHandler) ∈ getHandlersLocal
        (MTree.node 0 [] [] [MTree.node 1 [] [⟨none, false, none, 7⟩] []]) "e" RChan.star ↔
      (((⟨none, false, none, 7⟩ : GHandler) ∈ bucketOf
          (MTree.node 0 [] [] [MTree.node 1 [] [⟨none, false, none, 7⟩] []]).hmap "*"
        ∨ (⟨none, false, none, 7⟩ : GHandler) ∈ bucketOf
          (MTree.node 0 [] [] [MTree.node 1 [] [⟨none, false, none, 7⟩] []]).hmap "e")
        ∧ matchesChannel ⟨none, false, none, 7⟩ RChan.star = true)
      ∨ (⟨none, false, none, 7⟩ : GHandler) ∈
          (MTree.node 0 [] [] [MTree.node 1 [] [⟨none, false, none, 7⟩] []]).globalsOf
      ∨ ∃ c ∈ (MTree.node 0 [] [] [MTree.node 1 [] [⟨none, false, none, 7⟩] []]).kids,
          (⟨none, false, none, 7⟩ : GHandler) ∈ getHandlersLocal c "e" RChan.star :=
  C8_getHandlers_spec.1 (MTree.node 0 [] [] [MTree.node 1 [] [⟨none, false, none, 7⟩] []])
    "e" RChan.star ⟨none, false, none, 7⟩ (by simp)

/-- Claim C8 (counterexample): a handler contributed by a child component
is found through the wildcard channel but not when the channel is the
manager instance itself, because `channel_is_instance` suppresses the
child recursion; the claim asserts child recursion for every channel
form. -/
theorem C8_counterexample :
    ((⟨none, false, none, 7⟩ : GHandler) ∈ getHandlers
      (MTree.node 0 [] [] [MTree.node 1 [] [⟨none, false, none, 7⟩] []]) "e" GChan.star)
    ∧ ¬((⟨none, false, none, 7⟩ : GHandler) ∈ getHandlers
      (MTree.node 0 [] [] [MTree.node 1 [] [⟨none, false, none, 7⟩] []]) "e"
      (GChan.inst (MTree.node 0 [] [] [MTree.node 1 [] [⟨none, false, none, 7⟩] []]))) := by
  constructor
  · simp [getHandlers, getHandlersLocal, getHandlersKids, bucketOf, alookup]
  · simp [getHandlers, getHandlersLocal, getHandlersKids, bucketOf, alookup, MTree.mid]

end Resolve

namespace Tasks

theorem iterCount_append_single (ts : List Task) (t : Task) :
    iterCount (ts ++ [t]) = iterCount ts + t.weight := by
  induction ts with
  | nil => cases t <;> simp [iterCount, Task.weight]
  | cons x xs ih => cases x <;> simp [iterCount, ih] <;> omega

theorem iterCount_erase (ts : List Task) (t : Task) (hmem : t ∈ ts) :
    iterCount (ts.erase t) + t.weight = iterCount ts := by
  induction ts with
  | nil => cases hmem
  | cons x xs ih =>
    by_cases hx : x = t
    · subst hx
      rw [List.erase_cons_head]
      cases x <;> simp [iterCount, Task.weight] <;> omega
    · have hmem2 : t ∈ xs := by
        rcases List.mem_cons.mp hmem with hm | hm
        · exact absurd hm.symm hx
        · exact hm
      rw [List.erase_cons_tail]
      · have ihh := ih hmem2
        cases x <;> simp [iterCount] <;> omega
      · simp [hx]

theorem iterCount_registerTask (ts : List Task) (t : Task) (hni : t ∉ ts) :
    iterCount (registerTask ts t) = iterCount ts + t.weight := by
  rw [registerTask, if_neg hni, iterCount_append_single]

theorem iterCount_unregisterTask_mem (ts : List Task) (t : Task) (hmem : t ∈ ts) :
    iterCount (unregisterTask ts t) + t.weight = iterCount ts := by
  rw [unregisterTask, if_pos hmem, iterCount_erase ts t hmem]

theorem iterCount_unregisterTask_not_mem (ts : List Task) (t : Task) (hni : t ∉ ts) :
    iterCount (unregisterTask ts t) = iterCount ts := by
  rw [unregisterTask, if_neg hni]

/-- Claim C2 (amended): `_eventDone`'s completion actions run exactly when
`waitingHandlers` is zero; and along error-free resumptions (dispatcher
registration, nested yields from plain tasks, `CallValue` completion,
exhaustion) `waitingHandlers` stays equal to the number of live task
iterators.  A task that raises is dropped from the task set without the
counter being decremented, so on that path the equality breaks (see the
counterexample). -/
theorem C2_waitingHandlers_invariant :
    (∀ wh : Int, eventDoneRuns wh = true ↔ wh = 0)
    ∧ (∀ (ev : TEvent) (g : Nat), Task.simple g ∉ ev.tasks →
        ev.waitingHandlers = (iterCount ev.tasks : Int) →
        (dispatchRegister ev g).waitingHandlers
          = (iterCount (dispatchRegister ev g).tasks : Int))
    ∧ (∀ (ev : TEvent) (t : Task) (res : NextRes),
        goodStep t res = true → t ∈ ev.tasks → ev.tasks.Nodup →
        freshOk t res ev.tasks = true →
        ev.waitingHandlers = (iterCount ev.tasks : Int) →
        (processTask ev t res).waitingHandlers
          = (iterCount (processTask ev t res).tasks : Int)) := by
  refine ⟨?_, ?_, ?_⟩
  · intro wh
    constructor
    · intro hr
      by_contra hne
      simp [eventDoneRuns, hne] at hr
    · intro hz; simp [eventDoneRuns, hz]
  · intro ev g hni hinv
    simp only [dispatchRegister]
    rw [iterCount_registerTask ev.tasks (.simple g) hni]
    simp only [Task.weight]
    omega
  · intro ev t res hgood hmem hnd hfresh hinv
    cases res with
    | yval => simpa [processTask] using hinv
    | yraise => simp [goodStep] at hgood
    | ygen g =>
      cases t with
      | nested it p => simp [goodStep] at hgood
      | simple it =>
        simp only [processTask, Task.iter]
        simp only [freshOk, decide_eq_true_eq] at hfresh
        have h1 := iterCount_registerTask ev.tasks (.nested g it) hfresh
        have hmem2 : Task.simple it ∈ registerTask ev.tasks (.nested g it) := by
          rw [registerTask, if_neg hfresh]
          exact List.mem_append_left _ hmem
        have h2 := iterCount_unregisterTask_mem _ (.simple it) hmem2
        rw [h1] at h2
        simp only [Task.weight] at h1 h2
        omega
    | ystop =>
      cases t with
      | simple it =>
        simp only [processTask]
        have h2 := iterCount_unregisterTask_mem ev.tasks (.simple it) hmem
        simp only [Task.weight] at h2
        omega
      | nested it p =>
        simp only [processTask]
        simp only [freshOk, decide_eq_true_eq] at hfresh
        have h1 := iterCount_unregisterTask_mem ev.tasks (.nested it p) hmem
        have hnotin : Task.simple p ∉ unregisterTask ev.tasks (.nested it p) := by
          intro hc
          rw [unregisterTask, if_pos hmem] at hc
          exact hfresh (List.mem_of_mem_erase hc)
        have h2 := iterCount_registerTask _ (.simple p) hnotin
        simp only [Task.weight] at h1 h2
        omega
    | ycall pres =>
      cases t with
      | simple it => simp [goodStep] at hgood
      | nested it p =>
        have h1 := iterCount_unregisterTask_mem ev.tasks (.nested it p) hmem
        have hout : Task.nested it p ∉ unregisterTask ev.tasks (.nested it p) := by
          rw [unregisterTask, if_pos hmem]
          intro hc
          exact ((List.Nodup.mem_erase_iff hnd).mp hc).1 rfl
        cases pres with
        | rraise => simp [goodStep] at hgood
        | rgen g =>
          simp only [processTask]
          simp only [freshOk, decide_eq_true_eq] at hfresh
          have hnotin : Task.nested g p ∉ unregisterTask ev.tasks (.nested it p) := by
            intro hc
            rw [unregisterTask, if_pos hmem] at hc
            exact hfresh (List.mem_of_mem_erase hc)
          have h2 := iterCount_registerTask _ (.nested g p) hnotin
          simp only [Task.weight] at h1 h2
          omega
        | rval =>
          simp only [processTask]
          simp only [freshOk, decide_eq_true_eq] at hfresh
          have hnotin : Task.simple p ∉ unregisterTask ev.tasks (.nested it p) := by
            intro hc
            rw [unregisterTask, if_pos hmem] at hc
            exact hfresh (List.mem_of_mem_erase hc)
          have h2 := iterCount_registerTask _ (.simple p) hnotin
          simp only [Task.weight] at h1 h2
          omega
        | rstop =>
          simp only [processTask]
          simp only [freshOk, decide_eq_true_eq] at hfresh
          have hu2 : unregisterTask (unregisterTask ev.tasks (.nested it p)) (.nested it p)
              = unregisterTask ev.tasks (.nested it p) := by
            rw [unregisterTask, if_neg hout]
          rw [hu2]
          have hnotin : Task.simple p ∉ unregisterTask ev.tasks (.nested it p) := by
            intro hc
            rw [unregisterTask, if_pos hmem] at hc
            exact hfresh (List.mem_of_mem_erase hc)
          have h2 := iterCount_registerTask _ (.simple p) hnotin
          simp only [Task.weight] at h1 h2
          omega

/-- Witness for claim C2's amended theorem: a plain task yielding a nested
generator keeps the accounting exact. -/
theorem C2_waitingHandlers_invariant_witness :
    (processTask ⟨1, [Task.simple 0]⟩ (Task.simple 0) (NextRes.ygen 5)).waitingHandlers
      = (iterCount (processTask ⟨1, [Task.simple 0]⟩ (Task.simple 0) (NextRes.ygen 5)).tasks
          : Int) :=
  C2_waitingHandlers_invariant.2.2 ⟨1, [Task.simple 0]⟩ (Task.simple 0) (NextRes.ygen 5)
    (by decide) (by decide) (by decide) (by decide) (by decide)

/-- Claim C2 (counterexample): a task whose iterator raises is unregistered
by the bare `except` without `waitingHandlers` being decremented, so the
counter no longer equals the number of live task iterators. -/
theorem C2_counterexample :
    (processTask ⟨1, [Task.simple 0]⟩ (Task.simple 0) NextRes.yraise).waitingHandlers = 1
    ∧ iterCount (processTask ⟨1, [Task.simple 0]⟩ (Task.simple 0) NextRes.yraise).tasks = 0
    ∧ Task.simple 0 ∉ (processTask ⟨1, [Task.simple 0]⟩ (Task.simple 0) NextRes.yraise).tasks := by
  decide

end Tasks

namespace Causation

theorem setRec_self (recs : Nat → CRec) (x : Nat) (r : CRec) : setRec recs x r x = r := by
  simp [setRec]

theorem setRec_other (recs : Nat → CRec) (x : Nat) (r : CRec) {z : Nat} (h : z ≠ x) :
    setRec recs x r z = recs z := by
  simp [setRec, h]

theorem tracked_true_iff (recs : Nat → CRec) (z : Nat) :
    tracked recs z = true ↔ (recs z).cause ≠ none := by
  simp [tracked]

theorem tracked_false_iff (recs : Nat → CRec) (z : Nat) :
    tracked recs z = false ↔ (recs z).cause = none := by
  simp [tracked]

theorem trackedKids_congr (spawn : Nat → List Nat) (recs1 recs2 : Nat → CRec) (z : Nat)
    (h : ∀ k ∈ spawn z, tracked recs1 k = tracked recs2 k) :
    trackedKids spawn recs1 z = trackedKids spawn recs2 z := by
  unfold trackedKids
  exact List.countP_congr (fun k hk => by rw [h k hk])

theorem countP_flip {α : Type} (p q : α → Bool) :
    ∀ (l : List α), l.Nodup → ∀ y, y ∈ l → p y = true → q y = false →
    (∀ k ∈ l, k ≠ y → p k = q k) → l.countP p = l.countP q + 1 := by
  intro l
  induction l with
  | nil => intro _ y hy; cases hy
  | cons a as ih =>
    intro hnd y hy hp hq hoth
    rcases List.nodup_cons.mp hnd with ⟨hna, hndas⟩
    rcases List.mem_cons.mp hy with hy | hy
    · subst hy
      rw [List.countP_cons_of_pos _ _ (by exact hp),
        List.countP_cons_of_neg _ _ (by simp [hq])]
      have hagree : ∀ k ∈ as, p k = q k := by
        intro k hk
        have : k ≠ y := fun he => hna (he ▸ hk)
        exact hoth k (List.mem_cons_of_mem _ hk) this
      rw [List.countP_congr (fun k hk => by rw [hagree k hk])]
    · have hay : a ≠ y := fun he => hna (he ▸ hy)
      have hpq : p a = q a := hoth a (List.mem_cons_self _ _) hay
      have := ih hndas y hy hp hq
        (fun k hk hne => hoth k (List.mem_cons_of_mem _ hk) hne)
      cases hpa : p a with
      | true =>
        rw [List.countP_cons_of_pos _ _ (by exact hpa),
          List.countP_cons_of_pos _ _ (by rw [← hpq]; exact hpa)]
        omega
      | false =>
        rw [List.countP_cons_of_neg _ _ (by simp [hpa]),
          List.countP_cons_of_neg _ _ (by simp [← hpq, hpa])]
        omega

theorem walkDone_stop (recs : Nat → CRec) (x : Nat) (h : (recs x).cause = none) :
    ∀ fuel, walkDone recs x fuel = (recs, []) := by
  intro fuel
  cases fuel with
  | zero => rfl
  | succ f => simp [walkDone, h]

theorem subtree_glue (spawn : Nat → List Nat) (D : List Nat) (x : Nat) (hx : x ∈ D)
    (hk : ∀ k, k ∈ spawn x → subtreeDispatched spawn D k) :
    subtreeDispatched spawn D x := by
  intro z hz
  cases hz with
  | refl => exact hx
  | child _ c _ hc hr => exact hk c hc z hr

theorem subtreeDispatched_mono (spawn : Nat → List Nat) (D D2 : List Nat) (x : Nat)
    (h : ∀ z, z ∈ D → z ∈ D2) (hs : subtreeDispatched spawn D x) :
    subtreeDispatched spawn D2 x :=
  fun z hz => h z (hs z hz)

theorem MInv_drop_ex (spawn : Nat → List Nat) (flags : Nat → Bool) (Q D : List Nat)
    (x : Nat) (recs : Nat → CRec) (hx : tracked recs x = false)
    (m : MInv spawn flags Q D (some x) recs) : MInv spawn flags Q D none recs := by
  refine ⟨m.trackedFired, m.untrackedZero, m.flagEq, m.causeShape, m.parentTracked,
    m.selfRoot, ?_, ?_, m.kidsStatus⟩
  · intro z hz
    have hzx : z ≠ x := fun he => by rw [he, hx] at hz; cases hz
    have := m.effectsEq z hz
    simp only [Option.some.injEq] at this
    rw [if_neg (fun he : x = z => hzx he.symm)] at this
    simpa using this
  · intro z hz hD _
    have hzx : z ≠ x := fun he => by rw [he, hx] at hz; cases hz
    exact m.trackedPos z hz hD (by simp [hzx.symm])

theorem MInv_clear (spawn : Nat → List Nat) (flags : Nat → Bool) (Q D : List Nat)
    (x : Nat) (recs : Nat → CRec) (ex2 : Option Nat)
    (m : MInv spawn flags Q D (some x) recs)
    (htx : tracked recs x = true)
    (hxD : x ∈ D) (hQD : ∀ z, z ∈ Q → z ∉ D)
    (hkuntr : ∀ k, k ∈ spawn x → tracked recs k = false)
    (hsub : subtreeDispatched spawn D x)
    (hpar : ∀ z, tracked recs z = true → x ∈ spawn z → ex2 = some z)
    (hexc : ∀ z, ex2 = some z → z ≠ x ∧ tracked recs z = true ∧ z ∈ D ∧ x ∈ spawn z)
    (hnodup : ∀ p, (spawn p).Nodup) :
    MInv spawn flags Q D ex2 (setRec recs x ⟨(recs x).complete, none, 0⟩) := by
  set recs2 := setRec recs x ⟨(recs x).complete, none, 0⟩ with hrecs2
  have hR2x : recs2 x = ⟨(recs x).complete, none, 0⟩ := setRec_self _ _ _
  have hR2o : ∀ z, z ≠ x → recs2 z = recs z := fun z hz => setRec_other _ _ _ hz
  have htx2 : tracked recs2 x = false := by
    rw [tracked_false_iff, hR2x]
  have htr2 : ∀ z, z ≠ x → tracked recs2 z = tracked recs z := by
    intro z hz; unfold tracked; rw [hR2o z hz]
  have hmemne : ∀ z, tracked recs z = true → ∀ k, k ∈ spawn z → x ∈ spawn z → z = x → False := by
    intro z hz k _ hxz hzx
    rw [hzx] at hxz
    have := hkuntr x hxz
    rw [hzx] at hz
    rw [this] at hz
    cases hz
  have hkids_same : ∀ z, tracked recs z = true → x ∉ spawn z →
      trackedKids spawn recs2 z = trackedKids spawn recs z := by
    intro z _ hxz
    refine trackedKids_congr spawn recs2 recs z ?_
    intro k hk
    have hkx : k ≠ x := fun he => hxz (he ▸ hk)
    exact htr2 k hkx
  refine ⟨?_, ?_, ?_, ?_, ?_, ?_, ?_, ?_, ?_⟩
  · -- trackedFired
    intro z hz
    by_cases hzx : z = x
    · rw [hzx, htx2] at hz; cases hz
    · rw [htr2 z hzx] at hz; exact m.trackedFired z hz
  · -- untrackedZero
    intro z hz
    by_cases hzx : z = x
    · rw [hzx, hR2x]
    · rw [hR2o z hzx]
      rw [htr2 z hzx] at hz
      exact m.untrackedZero z hz
  · -- flagEq
    intro z
    by_cases hzx : z = x
    · rw [hzx, hR2x]; exact m.flagEq x
    · rw [hR2o z hzx]; exact m.flagEq z
  · -- causeShape
    intro z p hzp
    by_cases hzx : z = x
    · rw [hzx, hR2x] at hzp; cases hzp
    · rw [hR2o z hzx] at hzp; exact m.causeShape z p hzp
  · -- parentTracked
    intro z p hzp hpz
    by_cases hzx : z = x
    · rw [hzx, hR2x] at hzp; cases hzp
    · rw [hR2o z hzx] at hzp
      have htp : tracked recs p = true := m.parentTracked z p hzp hpz
      by_cases hpx : p = x
      · exfalso
        rw [hpx] at hzp
        rcases m.causeShape z x hzp with he | he
        · exact hzx he.symm
        · have hzt : tracked recs z = true := by
            rw [tracked_true_iff, hzp]; simp
          have := hkuntr z he.1
          rw [this] at hzt; cases hzt
      · rw [htr2 p hpx]; exact htp
  · -- selfRoot
    intro z p hzz hzsp
    by_cases hzx : z = x
    · rw [hzx, hR2x] at hzz; cases hzz
    · rw [hR2o z hzx] at hzz
      have := m.selfRoot z p hzz hzsp
      by_cases hpx : p = x
      · rw [hpx]; exact htx2
      · rw [htr2 p hpx]; exact this
  · -- effectsEq
    intro z hz
    by_cases hzx : z = x
    · rw [hzx, htx2] at hz; cases hz
    · have hzt : tracked recs z = true := by rw [← htr2 z hzx]; exact hz
      have hpre := m.effectsEq z hzt
      rw [hR2o z hzx]
      have hxnez : ¬((some x : Option Nat) = some z) := fun hcon =>
        hzx (Option.some.inj hcon).symm
      by_cases hex : ex2 = some z
      · obtain ⟨hzx2, hzt2, hzD, hxsp⟩ := hexc z hex
        have hzQ : z ∉ Q := fun hq => hQD z hq hzD
        have hflip : trackedKids spawn recs z = trackedKids spawn recs2 z + 1 := by
          unfold trackedKids
          refine countP_flip _ _ (spawn z) (hnodup z) x hxsp ?_ ?_ ?_
          · exact htx
          · exact htx2
          · intro k _ hk
            exact (htr2 k hk).symm
        rw [if_neg hzQ, if_neg hxnez, hflip] at hpre
        rw [if_neg hzQ, if_pos hex]
        push_cast at hpre ⊢
        omega
      · have hxz : x ∉ spawn z := fun hxsp => hex (hpar z hzt hxsp)
        rw [hkids_same z hzt hxz]
        rw [if_neg hxnez] at hpre
        rw [if_neg hex]
        exact hpre
  · -- trackedPos
    intro z hz hzD hex
    by_cases hzx : z = x
    · rw [hzx, htx2] at hz; cases hz
    · have hzt : tracked recs z = true := by rw [← htr2 z hzx]; exact hz
      have hxz : x ∉ spawn z := by
        intro hxsp
        exact hex (hpar z hzt hxsp)
      rw [hkids_same z hzt hxz]
      refine m.trackedPos z hzt hzD ?_
      intro hcon
      exact hzx (Option.some.inj hcon).symm
  · -- kidsStatus
    intro p hp hpD c hc
    by_cases hpx : p = x
    · rw [hpx, htx2] at hp; cases hp
    · have hpt : tracked recs p = true := by rw [← htr2 p hpx]; exact hp
      by_cases hcx : c = x
      · right
        rw [hcx]
        exact ⟨hxD, hsub⟩
      · rcases m.kidsStatus p hpt hpD c hc with hk | hk
        · left; rw [htr2 c hcx]; exact hk
        · right; exact hk

/-- The specification of one `_eventDone` walk starting at a freshly
dispatched event `x`: the record invariant is restored with no surplus,
the emitted `Complete` events are exactly the cleared events that asked
for completion, each emitted event was tracked, is now untracked, and has
its whole subtree dispatched; no event becomes tracked, and every tracked
complete-flagged event that the walk untracks is emitted. -/
theorem walkDone_spec (spawn : Nat → List Nat) (flags : Nat → Bool) (roots Q D : List Nat)
    (wf : SpawnWF spawn roots) (hQD : ∀ z, z ∈ Q → z ∉ D) :
    ∀ fuel x recs recsF em, x + 1 ≤ fuel → x ∈ D →
    MInv spawn flags Q D (some x) recs →
    walkDone recs x fuel = (recsF, em) →
    MInv spawn flags Q D none recsF
    ∧ (∀ e, e ∈ em → flags e = true ∧ tracked recs e = true
        ∧ tracked recsF e = false ∧ e ∈ D ∧ subtreeDispatched spawn D e)
    ∧ em.Nodup
    ∧ (∀ z, tracked recs z = false → tracked recsF z = false)
    ∧ (∀ z, flags z = true → tracked recs z = true → tracked recsF z = false → z ∈ em) := by
  intro fuel
  induction fuel with
  | zero =>
    intro x recs recsF em hf
    exact absurd hf (by omega)
  | succ f ih =>
    intro x recs recsF em hf hxD m hw
    have hxQ : x ∉ Q := fun hq => hQD x hq hxD
    cases hc : (recs x).cause with
    | none =>
      have htx : tracked recs x = false := (tracked_false_iff _ _).mpr hc
      simp only [walkDone, hc] at hw
      rw [Prod.mk.injEq] at hw
      obtain ⟨h1, h2⟩ := hw
      subst h1; subst h2
      refine ⟨MInv_drop_ex _ _ _ _ _ _ htx m, ?_, List.nodup_nil, fun z hz => hz, ?_⟩
      · intro e he; cases he
      · intro z _ hz1 hz2
        rw [hz1] at hz2; cases hz2
    | some c =>
      have htx : tracked recs x = true := (tracked_true_iff _ _).mpr (by rw [hc]; simp)
      have heq := m.effectsEq x htx
      rw [if_neg hxQ, if_pos rfl] at heq
      simp only [walkDone, hc] at hw
      by_cases hpos : (0 : Int) < (recs x).effects - 1
      · -- effects remain: decrement and stop
        rw [if_pos hpos] at hw
        rw [Prod.mk.injEq] at hw
        obtain ⟨h1, h2⟩ := hw
        subst h2
        have hFx : recsF x = ⟨(recs x).complete, some c, (recs x).effects - 1⟩ := by
          rw [← h1, setRec_self]
        have hFo : ∀ z, z ≠ x → recsF z = recs z := by
          intro z hz; rw [← h1, setRec_other _ _ _ hz]
        have htr : ∀ z, tracked recsF z = tracked recs z := by
          intro z
          by_cases hz : z = x
          · subst hz; unfold tracked; rw [hFx, hc]
          · unfold tracked; rw [hFo z hz]
        have hkid : ∀ z, trackedKids spawn recsF z = trackedKids spawn recs z :=
          fun z => trackedKids_congr _ _ _ _ (fun k _ => htr k)
        have hkx : 1 ≤ trackedKids spawn recs x := by omega
        refine ⟨⟨?_, ?_, ?_, ?_, ?_, ?_, ?_, ?_, ?_⟩, ?_, List.nodup_nil, ?_, ?_⟩
        · intro z hz; rw [htr z] at hz; exact m.trackedFired z hz
        · intro z hz
          rw [htr z] at hz
          by_cases hzx : z = x
          · subst hzx; rw [hz] at htx; cases htx
          · rw [hFo z hzx]; exact m.untrackedZero z hz
        · intro z
          by_cases hzx : z = x
          · subst hzx; rw [hFx]; exact m.flagEq z
          · rw [hFo z hzx]; exact m.flagEq z
        · intro z p hzp
          by_cases hzx : z = x
          · subst hzx
            rw [hFx] at hzp
            have hcp : (some c : Option Nat) = some p := hzp
            obtain rfl : c = p := Option.some.inj hcp
            exact m.causeShape z c hc
          · rw [hFo z hzx] at hzp; exact m.causeShape z p hzp
        · intro z p hzp hpz
          rw [htr p]
          by_cases hzx : z = x
          · subst hzx
            rw [hFx] at hzp
            have hcp : (some c : Option Nat) = some p := hzp
            obtain rfl : c = p := Option.some.inj hcp
            exact m.parentTracked z c hc hpz
          · rw [hFo z hzx] at hzp; exact m.parentTracked z p hzp hpz
        · intro z p hzz hzsp
          rw [htr p]
          by_cases hzx : z = x
          · subst hzx
            rw [hFx] at hzz
            have hcp : (some c : Option Nat) = some z := hzz
            obtain rfl : c = z := Option.some.inj hcp
            exact m.selfRoot c p hc hzsp
          · rw [hFo z hzx] at hzz; exact m.selfRoot z p hzz hzsp
        · intro z hz
          rw [htr z] at hz
          rw [hkid z]
          by_cases hzx : z = x
          · subst hzx
            rw [hFx]
            have hproj : (⟨(recs z).complete, some c, (recs z).effects - 1⟩ : CRec).effects
                = (recs z).effects - 1 := rfl
            rw [hproj]
            simp only [if_neg hxQ]
            simp only [show ((none : Option Nat) = some z) = False by simp, if_false]
            omega
          · rw [hFo z hzx]
            have hpre := m.effectsEq z hz
            have hxnez : ¬((some x : Option Nat) = some z) := fun hcon =>
              hzx (Option.some.inj hcon).symm
            rw [if_neg hxnez] at hpre
            simp only [show ((none : Option Nat) = some z) = False by simp]
            simpa using hpre
        · intro z hz hzD _
          rw [htr z] at hz
          rw [hkid z]
          by_cases hzx : z = x
          · subst hzx; exact hkx
          · exact m.trackedPos z hz hzD (fun hcon => hzx (Option.some.inj hcon).symm)
        · intro p hp hpD c' hc'
          rw [htr p] at hp
          rcases m.kidsStatus p hp hpD c' hc' with hk | hk
          · left; rw [htr c']; exact hk
          · right; exact hk
        · intro e he; cases he
        · intro z hz; rw [htr z]; exact hz
        · intro z _ hz1 hz2
          rw [htr z] at hz2
          rw [hz1] at hz2; cases hz2
      · -- effects exhausted: clear, perhaps emit, continue with the cause
        rw [if_neg hpos] at hw
        have hkids0 : trackedKids spawn recs x = 0 := by omega
        have hkuntr : ∀ k, k ∈ spawn x → tracked recs k = false := by
          intro k hk
          have h0 : (spawn x).countP (fun c => tracked recs c) = 0 := hkids0
          have := List.countP_eq_zero.mp h0 k hk
          simpa using this
        have hsub : subtreeDispatched spawn D x := by
          refine subtree_glue _ _ _ hxD ?_
          intro k hk
          rcases m.kidsStatus x htx hxD k hk with h | h
          · rw [hkuntr k hk] at h; cases h
          · exact h.2
        have hcaus2 : (setRec recs x ⟨(recs x).complete, none, 0⟩ x).cause = none := by
          rw [setRec_self]
        have htx2 : tracked (setRec recs x ⟨(recs x).complete, none, 0⟩) x = false :=
          (tracked_false_iff _ _).mpr hcaus2
        have htr2 : ∀ z, z ≠ x →
            tracked (setRec recs x ⟨(recs x).complete, none, 0⟩) z = tracked recs z := by
          intro z hz; unfold tracked; rw [setRec_other _ _ _ hz]
        have hflag : (recs x).complete = flags x := m.flagEq x
        by_cases hcx : c = x
        · subst hcx
          rw [walkDone_stop _ _ hcaus2 f] at hw
          rw [Prod.mk.injEq] at hw
          obtain ⟨h1, h2⟩ := hw
          subst h1
          have hpar : ∀ z, tracked recs z = true → c ∈ spawn z →
              (none : Option Nat) = some z := by
            intro z hz hxsp
            have := m.selfRoot c z hc hxsp
            rw [this] at hz; cases hz
          have hm2 := MInv_clear spawn flags Q D c recs none m htx hxD hQD hkuntr hsub
            hpar (fun z hz => by cases hz) wf.nodupKids
          refine ⟨hm2, ?_, ?_, ?_, ?_⟩
          · intro e he
            rw [← h2] at he
            rw [List.append_nil] at he
            have hfx : (recs c).complete = true := by
              by_contra hcon
              rw [if_neg hcon] at he; cases he
            rw [if_pos hfx] at he
            rw [List.mem_singleton] at he
            subst he
            exact ⟨hflag ▸ hfx, htx, htx2, hxD, hsub⟩
          · rw [← h2, List.append_nil]
            by_cases hfx : (recs c).complete = true
            · rw [if_pos hfx]; exact List.nodup_singleton c
            · rw [if_neg hfx]; exact List.nodup_nil
          · intro z hz
            by_cases hzx : z = c
            · subst hzx; exact htx2
            · rw [htr2 z hzx]; exact hz
          · intro z hfz hz1 hz2
            by_cases hzx : z = c
            · subst hzx
              rw [← h2, List.append_nil, hflag, if_pos hfz]
              exact List.mem_singleton.mpr rfl
            · rw [htr2 z hzx] at hz2
              rw [hz1] at hz2; cases hz2
        · rcases m.causeShape x c hc with he | he
          · exact absurd he hcx
          obtain ⟨hxsp, hcD⟩ := he
          have hclt : c < x := wf.parent_lt c x hxsp
          have htc : tracked recs c = true := m.parentTracked x c hc hcx
          have hpar : ∀ z, tracked recs z = true → x ∈ spawn z →
              (some c : Option Nat) = some z := by
            intro z _ hxz
            have := wf.uniqParent z c x hxz hxsp
            rw [this]
          have hexc : ∀ z, (some c : Option Nat) = some z →
              z ≠ x ∧ tracked recs z = true ∧ z ∈ D ∧ x ∈ spawn z := by
            intro z hz
            have hzc : z = c := (Option.some.inj hz).symm
            subst hzc
            exact ⟨hcx, htc, hcD, hxsp⟩
          have hm2 := MInv_clear spawn flags Q D x recs (some c) m htx hxD hQD hkuntr hsub
            hpar hexc wf.nodupKids
          have hcf : c + 1 ≤ f := by omega
          rcases hEq : walkDone (setRec recs x ⟨(recs x).complete, none, 0⟩) c f with ⟨rF, rEm⟩
          rw [hEq] at hw
          rw [Prod.mk.injEq] at hw
          obtain ⟨h1, h2⟩ := hw
          subst h1
          obtain ⟨ihm, ihem, ihnd, ihmono, ihcomp⟩ := ih c _ rF rEm hcf hcD hm2 hEq
          have hxnotem : x ∉ rEm := by
            intro hcon
            have := (ihem x hcon).2.1
            rw [htx2] at this; cases this
          refine ⟨ihm, ?_, ?_, ?_, ?_⟩
          · intro e he
            rw [← h2] at he
            rcases List.mem_append.mp he with he | he
            · have hfx : (recs x).complete = true := by
                by_contra hcon
                rw [if_neg hcon] at he; cases he
              rw [if_pos hfx, List.mem_singleton] at he
              subst he
              exact ⟨hflag ▸ hfx, htx, ihmono e htx2, hxD, hsub⟩
            · obtain ⟨hf1, hf2, hf3, hf4, hf5⟩ := ihem e he
              have hex : e ≠ x := by
                intro hcon
                rw [hcon, htx2] at hf2; cases hf2
              rw [htr2 e hex] at hf2
              exact ⟨hf1, hf2, hf3, hf4, hf5⟩
          · rw [← h2]
            by_cases hfx : (recs x).complete = true
            · rw [if_pos hfx]
              simp only [List.singleton_append, List.nodup_cons]
              exact ⟨hxnotem, ihnd⟩
            · rw [if_neg hfx]
              simpa using ihnd
          · intro z hz
            by_cases hzx : z = x
            · subst hzx
              exact ihmono z htx2
            · rw [← htr2 z hzx] at hz
              exact ihmono z hz
          · intro z hfz hz1 hz2
            rw [← h2]
            by_cases hzx : z = x
            · subst hzx
              refine List.mem_append.mpr (Or.inl ?_)
              rw [hflag, if_pos hfz]
              exact List.mem_singleton.mpr rfl
            · have hz1b : tracked (setRec recs x ⟨(recs x).complete, none, 0⟩) z = true := by
                rw [htr2 z hzx]; exact hz1
              exact List.mem_append.mpr (Or.inr (ihcomp z hfz hz1b hz2))

theorem dispatchSetup_not_complete (recs : Nat → CRec) (x : Nat)
    (h : (recs x).complete = false) : dispatchSetup recs x = recs := by
  unfold dispatchSetup
  simp [h]

theorem dispatchSetup_complete (recs : Nat → CRec) (x : Nat)
    (h : (recs x).complete = true) :
    dispatchSetup recs x = setRec recs x
      ⟨(recs x).complete, (if (recs x).cause = none then some x else (recs x).cause), 1⟩ := by
  unfold dispatchSetup
  rw [if_pos h]
  by_cases hc : (recs x).cause = none
  · simp [hc]
  · simp [hc]

theorem fireFold_untracked (x : Nat) (recs : Nat → CRec) (h : tracked recs x = false) :
    ∀ ks : List Nat, ks.foldl (fun r c => fireChild r x c) recs = recs := by
  intro ks
  induction ks with
  | nil => rfl
  | cons k rest ih =>
    rw [List.foldl_cons]
    have hstep : fireChild recs x k = recs := by
      unfold fireChild
      rw [tracked_false_iff] at h
      simp [h]
    rw [hstep, ih]

theorem fireChild_eq (recs : Nat → CRec) (x k : Nat) (hxk : x ≠ k)
    (hcne : ¬((recs x).cause = none)) :
    fireChild recs x k = setRec (setRec recs k ⟨(recs k).complete, some x, 1⟩) x
      ⟨(recs x).complete, (recs x).cause, (recs x).effects + 1⟩ := by
  funext z
  unfold fireChild
  rw [if_pos hcne]
  simp only [setRec]
  by_cases hz : z = x
  · rw [if_pos hz, if_pos hz, if_neg hxk]
  · rw [if_neg hz, if_neg hz]

theorem fireFold_tracked (x : Nat) :
    ∀ (ks : List Nat) (recs : Nat → CRec), tracked recs x = true → x ∉ ks → ks.Nodup →
    (∀ k, k ∈ ks → (ks.foldl (fun r c => fireChild r x c) recs) k
        = ⟨(recs k).complete, some x, 1⟩)
    ∧ ((ks.foldl (fun r c => fireChild r x c) recs) x
        = ⟨(recs x).complete, (recs x).cause, (recs x).effects + ks.length⟩)
    ∧ (∀ z, z ∉ ks → z ≠ x → (ks.foldl (fun r c => fireChild r x c) recs) z = recs z) := by
  intro ks
  induction ks with
  | nil =>
    intro recs _ _ _
    refine ⟨fun k hk => absurd hk (List.not_mem_nil k), ?_, fun z _ _ => rfl⟩
    simp
  | cons k rest ih =>
    intro recs htx hxks hnd
    have hxk : x ≠ k := fun he => hxks (he ▸ List.mem_cons_self k rest)
    have hxrest : x ∉ rest := fun hm => hxks (List.mem_cons_of_mem _ hm)
    have hkrest : k ∉ rest := (List.nodup_cons.mp hnd).1
    have hndrest : rest.Nodup := (List.nodup_cons.mp hnd).2
    have hcne : ¬((recs x).cause = none) := (tracked_true_iff _ _).mp htx
    rw [List.foldl_cons, fireChild_eq recs x k hxk hcne]
    set R : Nat → CRec := setRec (setRec recs k ⟨(recs k).complete, some x, 1⟩) x
      ⟨(recs x).complete, (recs x).cause, (recs x).effects + 1⟩ with hR
    have hRx : R x = ⟨(recs x).complete, (recs x).cause, (recs x).effects + 1⟩ :=
      setRec_self _ _ _
    have hRk : R k = ⟨(recs k).complete, some x, 1⟩ := by
      rw [hR, setRec_other _ _ _ (Ne.symm hxk), setRec_self]
    have hRo : ∀ z, z ≠ k → z ≠ x → R z = recs z := by
      intro z hzk hzx
      rw [hR, setRec_other _ _ _ hzx, setRec_other _ _ _ hzk]
    have htxR : tracked R x = true := by
      rw [tracked_true_iff, hRx]
      exact hcne
    obtain ⟨ih1, ih2, ih3⟩ := ih R htxR hxrest hndrest
    refine ⟨?_, ?_, ?_⟩
    · intro k2 hk2
      rcases List.mem_cons.mp hk2 with hk2 | hk2
      · subst hk2
        rw [ih3 k2 hkrest (fun he => hxk he.symm), hRk]
      · rw [ih1 k2 hk2, hRo k2 (fun he => hkrest (he ▸ hk2)) (fun he => hxrest (he ▸ hk2))]
    · rw [ih2, hRx]
      have harith : (recs x).effects + 1 + (rest.length : Int)
          = (recs x).effects + ((k :: rest).length : Int) := by
        simp only [List.length_cons]
        push_cast
        ring
      rw [harith]
    · intro z hz hzx
      have hzk : z ≠ k := fun he => hz (he ▸ List.mem_cons_self k rest)
      have hzrest : z ∉ rest := fun hm => hz (List.mem_cons_of_mem _ hm)
      rw [ih3 z hzrest hzx, hRo z hzk hzx]

/-- After popping `x`, running the completion setup and firing its
children, the record invariant holds for the new pending and dispatched
sets with the walk surplus sitting on `x`; moreover the tracked status of
already dispatched events is unchanged and `x` is tracked whenever it
wants completion. -/
theorem step_pre (spawn : Nat → List Nat) (flags : Nat → Bool) (roots : List Nat)
    (wf : SpawnWF spawn roots) (s : CState) (inv : Inv spawn flags roots s)
    (x : Nat) (q : List Nat) (hq : s.queue = x :: q) :
    MInv spawn flags (q ++ spawn x) (s.dispatchedIds ++ [x]) (some x)
      ((spawn x).foldl (fun r c => fireChild r x c) (dispatchSetup s.recs x))
    ∧ (∀ z, z ∈ s.dispatchedIds →
        tracked ((spawn x).foldl (fun r c => fireChild r x c) (dispatchSetup s.recs x)) z
          = tracked s.recs z)
    ∧ (flags x = true →
        tracked ((spawn x).foldl (fun r c => fireChild r x c) (dispatchSetup s.recs x)) x
          = true) := by
  have m0 := inv.minv
  have hxQ0 : x ∈ s.queue := by rw [hq]; exact List.mem_cons_self x q
  have hxD0 : x ∉ s.dispatchedIds := inv.disjoint x hxQ0
  have hxq : x ∉ q := by
    have h := inv.queueNodup
    rw [hq] at h
    exact (List.nodup_cons.mp h).1
  have hkun : ∀ k, k ∈ spawn x → ¬(k ∈ s.queue ∨ k ∈ s.dispatchedIds) :=
    inv.queueKidsUnfired x hxQ0
  have hkuntr : ∀ k, k ∈ spawn x → tracked s.recs k = false := by
    intro k hk
    by_contra hcon
    rw [Bool.not_eq_false] at hcon
    exact hkun k hk (m0.trackedFired k hcon)
  have hxsx : x ∉ spawn x := fun h => absurd (wf.parent_lt x x h) (lt_irrefl x)
  have hkq : ∀ k, k ∈ spawn x → k ∉ q := by
    intro k hk hkq2
    exact hkun k hk (Or.inl (by rw [hq]; exact List.mem_cons_of_mem _ hkq2))
  have hkD : ∀ k, k ∈ spawn x → k ∉ s.dispatchedIds := fun k hk hkd =>
    hkun k hk (Or.inr hkd)
  have hkx : ∀ k, k ∈ spawn x → k ≠ x := fun k hk he => hxsx (he ▸ hk)
  have hflagx : (s.recs x).complete = flags x := m0.flagEq x
  have hgrand : ∀ k, k ∈ spawn x → ∀ g, g ∈ spawn k → tracked s.recs g = false := by
    intro k hk g hg
    by_contra hcon
    rw [Bool.not_eq_false] at hcon
    rcases inv.firedSrc g (m0.trackedFired g hcon) with hr | ⟨p2, hp2D, hp2⟩
    · exact wf.rootsNotKid g k hr hg
    · have : p2 = k := wf.uniqParent p2 k g hp2 hg
      rw [this] at hp2D
      exact hkD k hk hp2D
  by_cases hT : tracked (dispatchSetup s.recs x) x = true
  · -- x is tracked after the setup
    have hpack : ∃ c0, (∀ z, z ≠ x → dispatchSetup s.recs x z = s.recs z)
        ∧ (dispatchSetup s.recs x x).complete = flags x
        ∧ (dispatchSetup s.recs x x).effects = 1
        ∧ (dispatchSetup s.recs x x).cause = some c0
        ∧ (c0 = x ∨ (x ∈ spawn c0 ∧ c0 ∈ s.dispatchedIds))
        ∧ (c0 = x → ∀ p, x ∈ spawn p → tracked s.recs p = false)
        ∧ (c0 ≠ x → tracked s.recs c0 = true ∧ (s.recs x).cause = some c0) := by
      by_cases hfx : (s.recs x).complete = true
      · rw [dispatchSetup_complete _ _ hfx] at hT ⊢
        by_cases hcn : (s.recs x).cause = none
        · refine ⟨x, fun z hz => setRec_other _ _ _ hz, ?_, ?_, ?_, Or.inl rfl, ?_, ?_⟩
          · rw [setRec_self]; exact hflagx
          · rw [setRec_self]
          · rw [setRec_self]; simp [hcn]
          · intro _ p hxp
            by_contra hcon
            rw [Bool.not_eq_false] at hcon
            rcases m0.trackedFired p hcon with hpQ | hpD
            · exact inv.queueKidsUnfired p hpQ x hxp (Or.inl hxQ0)
            · rcases m0.kidsStatus p hcon hpD x hxp with hx1 | hx2
              · rw [(tracked_false_iff _ _).mpr hcn] at hx1; cases hx1
              · exact hxD0 hx2.1
          · intro hcon; exact absurd rfl hcon
        · obtain ⟨c, hc⟩ := Option.ne_none_iff_exists'.mp hcn
          have htx0 : tracked s.recs x = true := (tracked_true_iff _ _).mpr (by rw [hc]; simp)
          refine ⟨c, fun z hz => setRec_other _ _ _ hz, ?_, ?_, ?_, ?_, ?_, ?_⟩
          · rw [setRec_self]; exact hflagx
          · rw [setRec_self]
          · rw [setRec_self]; simp [hcn, hc]
          · rcases m0.causeShape x c hc with he | he
            · exact Or.inl he
            · exact Or.inr he
          · intro hcx p hxp
            rw [hcx] at hc
            exact m0.selfRoot x p hc hxp
          · intro hcx
            exact ⟨m0.parentTracked x c hc hcx, hc⟩
      · rw [dispatchSetup_not_complete _ _ (Bool.not_eq_true _ ▸ hfx)] at hT ⊢
        have htx0 : tracked s.recs x = true := hT
        obtain ⟨c, hc⟩ := Option.ne_none_iff_exists'.mp ((tracked_true_iff _ _).mp htx0)
        have hkids0 : trackedKids spawn s.recs x = 0 := by
          unfold trackedKids
          rw [List.countP_eq_zero]
          intro k hk
          simp [hkuntr k hk]
        have heff := m0.effectsEq x htx0
        rw [if_pos hxQ0, hkids0] at heff
        simp only [show ((none : Option Nat) = some x) = False by simp, if_false] at heff
        refine ⟨c, fun z _ => rfl, hflagx, ?_, hc, ?_, ?_, ?_⟩
        · omega
        · rcases m0.causeShape x c hc with he | he
          · exact Or.inl he
          · exact Or.inr he
        · intro hcx p hxp
          rw [hcx] at hc
          exact m0.selfRoot x p hc hxp
        · intro hcx
          exact ⟨m0.parentTracked x c hc hcx, hc⟩
    obtain ⟨c0, hR1o, hR1ce, hR1ef, hR1c, hc0shape, hc0self, hc0tr⟩ := hpack
    have hR1tr : tracked (dispatchSetup s.recs x) x = true := hT
    obtain ⟨hF1, hF2, hF3⟩ := fireFold_tracked x (spawn x) (dispatchSetup s.recs x)
      hR1tr hxsx (wf.nodupKids x)
    set recs2 := (spawn x).foldl (fun r c => fireChild r x c) (dispatchSetup s.recs x)
      with hrecs2
    have hF1b : ∀ k, k ∈ spawn x → recs2 k = ⟨flags k, some x, 1⟩ := by
      intro k hk
      rw [hF1 k hk, hR1o k (hkx k hk), m0.flagEq k]
    have hF2b : recs2 x = ⟨flags x, some c0, 1 + ((spawn x).length : Int)⟩ := by
      rw [hF2, hR1ce, hR1ef, hR1c]
    have hF3b : ∀ z, z ∉ spawn x → z ≠ x → recs2 z = s.recs z := by
      intro z hz hzx
      rw [hF3 z hz hzx, hR1o z hzx]
    have htr2x : tracked recs2 x = true := by
      rw [tracked_true_iff, hF2b]; simp
    have htr2k : ∀ k, k ∈ spawn x → tracked recs2 k = true := by
      intro k hk
      rw [tracked_true_iff, hF1b k hk]; simp
    have htr2o : ∀ z, z ∉ spawn x → z ≠ x → tracked recs2 z = tracked s.recs z := by
      intro z hz hzx
      unfold tracked
      rw [hF3b z hz hzx]
    have hnotpar : ∀ z, tracked s.recs z = true → x ∈ spawn z → z = c0 ∧ c0 ≠ x := by
      intro z hz hxz
      rcases hc0shape with hce | ⟨hxc, _⟩
      · exact absurd hz (by rw [hc0self hce z hxz]; simp)
      · have : z = c0 := wf.uniqParent z c0 x hxz hxc
        refine ⟨this, ?_⟩
        intro hcon
        rw [hcon] at hxc
        exact hxsx hxc
    have hkidsame : ∀ z, z ≠ x → tracked s.recs z = true →
        trackedKids spawn recs2 z = trackedKids spawn s.recs z := by
      intro z hzx hzt
      refine trackedKids_congr _ _ _ _ ?_
      intro k hk
      by_cases hkxe : k = x
      · subst hkxe
        obtain ⟨hzc0, hc0x⟩ := hnotpar z hzt hk
        have := (hc0tr hc0x).1
        rw [htr2x]
        have htxold : tracked s.recs k = true := by
          rw [tracked_true_iff, (hc0tr hc0x).2]; simp
        rw [htxold]
      · by_cases hks : k ∈ spawn x
        · exact absurd (wf.uniqParent z x k hk hks) hzx
        · exact htr2o k hks hkxe
    have hmemQ : ∀ z, z ∈ q ++ spawn x ↔ z ∈ q ∨ z ∈ spawn x := fun z => List.mem_append
    have hmemD : ∀ z, z ∈ s.dispatchedIds ++ [x] ↔ z ∈ s.dispatchedIds ∨ z = x := by
      intro z
      rw [List.mem_append, List.mem_singleton]
    refine ⟨⟨?_, ?_, ?_, ?_, ?_, ?_, ?_, ?_, ?_⟩, ?_, fun _ => htr2x⟩
    · -- trackedFired
      intro z hz
      by_cases hzx : z = x
      · right; rw [hmemD]; exact Or.inr hzx
      · by_cases hzs : z ∈ spawn x
        · left; rw [hmemQ]; exact Or.inr hzs
        · rw [htr2o z hzs hzx] at hz
          rcases m0.trackedFired z hz with hzq | hzd
          · rw [hq] at hzq
            rcases List.mem_cons.mp hzq with he | he
            · exact absurd he hzx
            · left; rw [hmemQ]; exact Or.inl he
          · right; rw [hmemD]; exact Or.inl hzd
    · -- untrackedZero
      intro z hz
      by_cases hzx : z = x
      · rw [hzx, htr2x] at hz; cases hz
      · by_cases hzs : z ∈ spawn x
        · rw [htr2k z hzs] at hz; cases hz
        · rw [hF3b z hzs hzx]
          rw [htr2o z hzs hzx] at hz
          exact m0.untrackedZero z hz
    · -- flagEq
      intro z
      by_cases hzx : z = x
      · rw [hzx, hF2b]
      · by_cases hzs : z ∈ spawn x
        · rw [hF1b z hzs]
        · rw [hF3b z hzs hzx]; exact m0.flagEq z
    · -- causeShape
      intro z p hzp
      by_cases hzx : z = x
      · rw [hzx, hF2b] at hzp
        have : some c0 = some p := hzp
        obtain rfl : c0 = p := Option.some.inj this
        rcases hc0shape with he | ⟨h1, h2⟩
        · rw [hzx]; exact Or.inl he
        · rw [hzx]; right; exact ⟨h1, (hmemD c0).mpr (Or.inl h2)⟩
      · by_cases hzs : z ∈ spawn x
        · rw [hF1b z hzs] at hzp
          have : some x = some p := hzp
          obtain rfl : x = p := Option.some.inj this
          right
          exact ⟨hzs, (hmemD x).mpr (Or.inr rfl)⟩
        · rw [hF3b z hzs hzx] at hzp
          rcases m0.causeShape z p hzp with he | ⟨h1, h2⟩
          · exact Or.inl he
          · right; exact ⟨h1, (hmemD p).mpr (Or.inl h2)⟩
    · -- parentTracked
      intro z p hzp hpz
      by_cases hzx : z = x
      · rw [hzx, hF2b] at hzp
        have : some c0 = some p := hzp
        obtain rfl : c0 = p := Option.some.inj this
        have hc0x2 : c0 ≠ x := by
          intro he
          rw [hzx] at hpz
          exact hpz he
        have ht := (hc0tr hc0x2).1
        by_cases hcs : c0 ∈ spawn x
        · rw [hkuntr c0 hcs] at ht; cases ht
        · rw [htr2o c0 hcs hc0x2]; exact ht
      · by_cases hzs : z ∈ spawn x
        · rw [hF1b z hzs] at hzp
          have : some x = some p := hzp
          obtain rfl : x = p := Option.some.inj this
          exact htr2x
        · rw [hF3b z hzs hzx] at hzp
          have ht := m0.parentTracked z p hzp hpz
          by_cases hpx : p = x
          · rw [hpx]; exact htr2x
          · by_cases hps : p ∈ spawn x
            · exact htr2k p hps
            · rw [htr2o p hps hpx]; exact ht
    · -- selfRoot
      intro z p hzz hzsp
      by_cases hzx : z = x
      · rw [hzx] at hzz hzsp
        rw [hF2b] at hzz
        have hcx : c0 = x := Option.some.inj hzz
        have hpf := hc0self hcx p hzsp
        by_cases hpx : p = x
        · exact absurd (hpx ▸ hzsp) hxsx
        · by_cases hps : p ∈ spawn x
          · have h2 : p < x := wf.parent_lt p x hzsp
            have h3 : x < p := wf.parent_lt x p hps
            omega
          · rw [htr2o p hps hpx]; exact hpf
      · by_cases hzs : z ∈ spawn x
        · rw [hF1b z hzs] at hzz
          have : some x = some z := hzz
          exact absurd (Option.some.inj this) (fun he => hzx he.symm)
        · rw [hF3b z hzs hzx] at hzz
          have hzt : tracked s.recs z = true := by
            rw [tracked_true_iff, hzz]; simp
          have hold := m0.selfRoot z p hzz hzsp
          by_cases hpx : p = x
          · subst hpx
            exfalso
            rcases inv.firedSrc z (m0.trackedFired z hzt) with hr | ⟨p2, hp2D, hp2⟩
            · exact wf.rootsNotKid z p hr hzsp
            · have : p2 = p := wf.uniqParent p2 p z hp2 hzsp
              rw [this] at hp2D
              exact hxD0 hp2D
          · by_cases hps : p ∈ spawn x
            · exfalso
              rcases inv.firedSrc z (m0.trackedFired z hzt) with hr | ⟨p2, hp2D, hp2⟩
              · exact wf.rootsNotKid z p hr hzsp
              · have : p2 = p := wf.uniqParent p2 p z hp2 hzsp
                rw [this] at hp2D
                exact hkD p hps hp2D
            · rw [htr2o p hps hpx]; exact hold
    · -- effectsEq
      intro z hz
      by_cases hzx : z = x
      · rw [hzx]
        have hproj : (recs2 x).effects = 1 + ((spawn x).length : Int) := by rw [hF2b]
        have hzQ : x ∉ q ++ spawn x := by
          rw [hmemQ]
          rintro (h | h)
          · exact hxq h
          · exact hxsx h
        rw [hproj, if_neg hzQ, if_pos rfl]
        have hlen : trackedKids spawn recs2 x = (spawn x).length := by
          unfold trackedKids
          rw [List.countP_eq_length]
          intro k hk
          exact htr2k k hk
        rw [hlen]
        push_cast
        ring
      · by_cases hzs : z ∈ spawn x
        · rw [hF1b z hzs]
          have hzQ : z ∈ q ++ spawn x := (hmemQ z).mpr (Or.inr hzs)
          rw [if_pos hzQ, if_neg (fun hcon : some x = some z => hzx (Option.some.inj hcon).symm)]
          have hkids0 : trackedKids spawn recs2 z = 0 := by
            unfold trackedKids
            rw [List.countP_eq_zero]
            intro g hg
            by_cases hgx : g = x
            · exfalso
              rw [hgx] at hg
              have h1 : z < x := wf.parent_lt z x hg
              have h2 : x < z := wf.parent_lt x z hzs
              omega
            · by_cases hgs : g ∈ spawn x
              · exact absurd (wf.uniqParent z x g hg hgs) hzx
              · rw [htr2o g hgs hgx, hgrand z hzs g hg]
                simp
          rw [hkids0]
          simp
        · rw [htr2o z hzs hzx] at hz
          rw [hF3b z hzs hzx]
          have hpre := m0.effectsEq z hz
          have hQiff : z ∈ s.queue ↔ z ∈ q ++ spawn x := by
            rw [hq, hmemQ]
            constructor
            · intro h
              rcases List.mem_cons.mp h with he | he
              · exact absurd he hzx
              · exact Or.inl he
            · rintro (h | h)
              · exact List.mem_cons_of_mem _ h
              · exact absurd h (fun hc => hzs hc)
          rw [hkidsame z hzx hz]
          simp only [show ((none : Option Nat) = some z) = False by simp, if_false] at hpre
          rw [if_neg (fun hcon : some x = some z => hzx (Option.some.inj hcon).symm)]
          by_cases hzq : z ∈ s.queue
          · rw [if_pos (hQiff.mp hzq)]
            rw [if_pos hzq] at hpre
            omega
          · rw [if_neg (fun hcon => hzq (hQiff.mpr hcon))]
            rw [if_neg hzq] at hpre
            omega
    · -- trackedPos
      intro z hz hzD hex
      have hzx : z ≠ x := fun he => hex (by rw [he])
      have hzD0 : z ∈ s.dispatchedIds := by
        rcases (hmemD z).mp hzD with h | h
        · exact h
        · exact absurd h hzx
      have hzs : z ∉ spawn x := fun hs => hkD z hs hzD0
      rw [htr2o z hzs hzx] at hz
      rw [hkidsame z hzx hz]
      exact m0.trackedPos z hz hzD0 (by simp)
    · -- kidsStatus
      intro p hp hpD c hc
      by_cases hpx : p = x
      · left
        exact htr2k c (hpx ▸ hc)
      · have hpD0 : p ∈ s.dispatchedIds := by
          rcases (hmemD p).mp hpD with h | h
          · exact h
          · exact absurd h hpx
        have hps : p ∉ spawn x := fun hs => hkD p hs hpD0
        rw [htr2o p hps hpx] at hp
        by_cases hcx : c = x
        · left
          rw [hcx]
          exact htr2x
        · rcases m0.kidsStatus p hp hpD0 c hc with hk | ⟨hk1, hk2⟩
          · left
            by_cases hcs : c ∈ spawn x
            · exact htr2k c hcs
            · rw [htr2o c hcs hcx]; exact hk
          · right
            refine ⟨(hmemD c).mpr (Or.inl hk1), ?_⟩
            refine subtreeDispatched_mono _ _ _ _ ?_ hk2
            intro w hw
            exact (hmemD w).mpr (Or.inl hw)
    · -- tracked status of dispatched events is unchanged
      intro z hzD
      have hzx : z ≠ x := fun he => hxD0 (he ▸ hzD)
      have hzs : z ∉ spawn x := fun hs => hkD z hs hzD
      exact htr2o z hzs hzx
  · -- x stays untracked: nothing fires with tracking
    rw [Bool.not_eq_true] at hT
    have hfx : flags x = false := by
      by_contra hcon
      rw [Bool.not_eq_false] at hcon
      have hcompl : (s.recs x).complete = true := by rw [hflagx]; exact hcon
      rw [dispatchSetup_complete _ _ hcompl] at hT
      rw [tracked_false_iff, setRec_self] at hT
      by_cases hcn : (s.recs x).cause = none
      · rw [if_pos hcn] at hT; cases hT
      · rw [if_neg hcn] at hT; exact hcn hT
    have hcompl : (s.recs x).complete = false := by rw [hflagx]; exact hfx
    have hsetup : dispatchSetup s.recs x = s.recs := dispatchSetup_not_complete _ _ hcompl
    have htx0 : tracked s.recs x = false := by rw [← hsetup]; exact hT
    have hfold : (spawn x).foldl (fun r c => fireChild r x c) (dispatchSetup s.recs x)
        = s.recs := by
      rw [hsetup]
      exact fireFold_untracked x s.recs htx0 (spawn x)
    rw [hfold]
    have hmemQ : ∀ z, z ∈ q ++ spawn x ↔ z ∈ q ∨ z ∈ spawn x := fun z => List.mem_append
    have hmemD : ∀ z, z ∈ s.dispatchedIds ++ [x] ↔ z ∈ s.dispatchedIds ∨ z = x := by
      intro z
      rw [List.mem_append, List.mem_singleton]
    refine ⟨⟨?_, m0.untrackedZero, m0.flagEq, ?_, m0.parentTracked, m0.selfRoot,
      ?_, ?_, ?_⟩, fun z _ => rfl, ?_⟩
    · intro z hz
      have hzx : z ≠ x := fun he => by rw [he, htx0] at hz; cases hz
      rcases m0.trackedFired z hz with hzq | hzd
      · rw [hq] at hzq
        rcases List.mem_cons.mp hzq with he | he
        · exact absurd he hzx
        · left; exact (hmemQ z).mpr (Or.inl he)
      · right; exact (hmemD z).mpr (Or.inl hzd)
    · intro z p hzp
      rcases m0.causeShape z p hzp with he | ⟨h1, h2⟩
      · exact Or.inl he
      · right; exact ⟨h1, (hmemD p).mpr (Or.inl h2)⟩
    · intro z hz
      have hzx : z ≠ x := fun he => by rw [he, htx0] at hz; cases hz
      have hzs : z ∉ spawn x := fun hs => by rw [hkuntr z hs] at hz; cases hz
      have hpre := m0.effectsEq z hz
      have hQiff : z ∈ s.queue ↔ z ∈ q ++ spawn x := by
        rw [hq, hmemQ]
        constructor
        · intro h
          rcases List.mem_cons.mp h with he | he
          · exact absurd he hzx
          · exact Or.inl he
        · rintro (h | h)
          · exact List.mem_cons_of_mem _ h
          · exact absurd h hzs
      simp only [show ((none : Option Nat) = some z) = False by simp, if_false] at hpre
      rw [if_neg (fun hcon : some x = some z => hzx (Option.some.inj hcon).symm)]
      by_cases hzq : z ∈ s.queue
      · rw [if_pos (hQiff.mp hzq)]
        rw [if_pos hzq] at hpre
        omega
      · rw [if_neg (fun hcon => hzq (hQiff.mpr hcon))]
        rw [if_neg hzq] at hpre
        omega
    · intro z hz hzD hex
      have hzx : z ≠ x := fun he => hex (by rw [he])
      have hzD0 : z ∈ s.dispatchedIds := by
        rcases (hmemD z).mp hzD with h | h
        · exact h
        · exact absurd h hzx
      exact m0.trackedPos z hz hzD0 (by simp)
    · intro p hp hpD c hc
      by_cases hpx : p = x
      · rw [hpx, htx0] at hp; cases hp
      · have hpD0 : p ∈ s.dispatchedIds := by
          rcases (hmemD p).mp hpD with h | h
          · exact h
          · exact absurd h hpx
        rcases m0.kidsStatus p hp hpD0 c hc with hk | ⟨hk1, hk2⟩
        · exact Or.inl hk
        · right
          refine ⟨(hmemD c).mpr (Or.inl hk1), ?_⟩
          refine subtreeDispatched_mono _ _ _ _ ?_ hk2
          intro w hw
          exact (hmemD w).mpr (Or.inl hw)
    · intro hcon
      rw [hfx] at hcon; cases hcon

theorem count_map_cf_disp (l : List Nat) (y : Nat) :
    (l.map TItem.completeFired).count (TItem.dispatched y) = 0 := by
  rw [List.count_eq_zero]
  intro hcon
  obtain ⟨a, _, ha⟩ := List.mem_map.mp hcon
  cases ha

theorem count_map_cf (l : List Nat) (y : Nat) :
    (l.map TItem.completeFired).count (TItem.completeFired y) = l.count y := by
  apply List.count_map_of_injective
  intro a b h
  exact TItem.completeFired.inj h

/-- One flush round preserves the machine invariant. -/
theorem step_Inv (spawn : Nat → List Nat) (flags : Nat → Bool) (roots : List Nat)
    (wf : SpawnWF spawn roots) (s : CState) (inv : Inv spawn flags roots s) :
    Inv spawn flags roots (step spawn s) := by
  cases hq : s.queue with
  | nil =>
    have : step spawn s = s := by
      unfold step
      rw [hq]
    rw [this]
    exact inv
  | cons x q =>
    have m0 := inv.minv
    have hxQ0 : x ∈ s.queue := by rw [hq]; exact List.mem_cons_self x q
    have hxD0 : x ∉ s.dispatchedIds := inv.disjoint x hxQ0
    have hxq : x ∉ q := by
      have h := inv.queueNodup
      rw [hq] at h
      exact (List.nodup_cons.mp h).1
    have hqnd : q.Nodup := by
      have h := inv.queueNodup
      rw [hq] at h
      exact (List.nodup_cons.mp h).2
    have hkun : ∀ k, k ∈ spawn x → ¬(k ∈ s.queue ∨ k ∈ s.dispatchedIds) :=
      inv.queueKidsUnfired x hxQ0
    have hxsx : x ∉ spawn x := fun h => absurd (wf.parent_lt x x h) (lt_irrefl x)
    have hkq : ∀ k, k ∈ spawn x → k ∉ q := by
      intro k hk hkq2
      exact hkun k hk (Or.inl (by rw [hq]; exact List.mem_cons_of_mem _ hkq2))
    have hkD : ∀ k, k ∈ spawn x → k ∉ s.dispatchedIds := fun k hk hkd =>
      hkun k hk (Or.inr hkd)
    have hkx : ∀ k, k ∈ spawn x → k ≠ x := fun k hk he => hxsx (he ▸ hk)
    obtain ⟨hm2, hpres, hflagtr⟩ := step_pre spawn flags roots wf s inv x q hq
    set recs2 := (spawn x).foldl (fun r c => fireChild r x c) (dispatchSetup s.recs x)
      with hrecs2
    have hmemQ : ∀ z, z ∈ q ++ spawn x ↔ z ∈ q ∨ z ∈ spawn x := fun z => List.mem_append
    have hmemD : ∀ z, z ∈ s.dispatchedIds ++ [x] ↔ z ∈ s.dispatchedIds ∨ z = x := by
      intro z
      rw [List.mem_append, List.mem_singleton]
    have hQ'D' : ∀ z, z ∈ q ++ spawn x → z ∉ s.dispatchedIds ++ [x] := by
      intro z hz hzd
      rcases (hmemQ z).mp hz with h | h
      · rcases (hmemD z).mp hzd with h2 | h2
        · exact inv.disjoint z (by rw [hq]; exact List.mem_cons_of_mem _ h) h2
        · exact hxq (h2 ▸ h)
      · rcases (hmemD z).mp hzd with h2 | h2
        · exact hkD z h h2
        · exact hxsx (h2 ▸ h)
    have hxD' : x ∈ s.dispatchedIds ++ [x] := (hmemD x).mpr (Or.inr rfl)
    set wout := walkDone recs2 x (x + 1) with hwout
    have hspec := walkDone_spec spawn flags roots (q ++ spawn x) (s.dispatchedIds ++ [x])
      wf hQ'D' (x + 1) x recs2 wout.1 wout.2 (le_refl _) hxD' hm2 rfl
    obtain ⟨hmF, hem, hemnd, hmono, hback⟩ := hspec
    have hstep : step spawn s =
        ⟨wout.1, q ++ spawn x, s.dispatchedIds ++ [x],
          s.trace ++ TItem.dispatched x :: wout.2.map TItem.completeFired⟩ := by
      simp only [step, hq]
    rw [hstep]
    refine ⟨hmF, ?_, ?_, hQ'D', ?_, ?_, ?_, ?_, ?_, ?_⟩
    · -- queueNodup
      show (q ++ spawn x).Nodup
      refine List.Nodup.append hqnd (wf.nodupKids x) ?_
      intro a ha has
      exact hkq a has ha
    · -- dispNodup
      show (s.dispatchedIds ++ [x]).Nodup
      refine List.Nodup.append inv.dispNodup (List.nodup_singleton x) ?_
      intro a ha has
      rw [List.mem_singleton] at has
      exact hxD0 (has ▸ ha)
    · -- firedSrc
      intro z hz
      have hsrc : z ∈ roots ∨ ∃ p, p ∈ s.dispatchedIds ∧ z ∈ spawn p → True := Or.inr ⟨0, by simp⟩
      clear hsrc
      have hlift : (z ∈ roots ∨ ∃ p, p ∈ s.dispatchedIds ∧ z ∈ spawn p) →
          z ∈ roots ∨ ∃ p, p ∈ s.dispatchedIds ++ [x] ∧ z ∈ spawn p := by
        rintro (h | ⟨p, hp1, hp2⟩)
        · exact Or.inl h
        · exact Or.inr ⟨p, (hmemD p).mpr (Or.inl hp1), hp2⟩
      rcases hz with hz | hz
      · rcases (hmemQ z).mp hz with h | h
        · exact hlift (inv.firedSrc z (Or.inl (by rw [hq]; exact List.mem_cons_of_mem _ h)))
        · exact Or.inr ⟨x, hxD', h⟩
      · rcases (hmemD z).mp hz with h | h
        · exact hlift (inv.firedSrc z (Or.inr h))
        · exact hlift (inv.firedSrc z (Or.inl (h ▸ hxQ0)))
    · -- dispKidsFired
      intro p hp c hc
      rcases (hmemD p).mp hp with hp0 | hpx
      · rcases inv.dispKidsFired p hp0 c hc with h | h
        · rw [hq] at h
          rcases List.mem_cons.mp h with he | he
          · right; exact (hmemD c).mpr (Or.inr he)
          · left; exact (hmemQ c).mpr (Or.inl he)
        · right; exact (hmemD c).mpr (Or.inl h)
      · left
        exact (hmemQ c).mpr (Or.inr (hpx ▸ hc))
    · -- queueKidsUnfired
      intro p hp c hc hcon
      rcases (hmemQ p).mp hp with hpq | hps
      · have hunf := inv.queueKidsUnfired p (by rw [hq]; exact List.mem_cons_of_mem _ hpq) c hc
        rcases hcon with h | h
        · rcases (hmemQ c).mp h with h2 | h2
          · exact hunf (Or.inl (by rw [hq]; exact List.mem_cons_of_mem _ h2))
          · exact hxq ((wf.uniqParent p x c hc h2) ▸ hpq)
        · rcases (hmemD c).mp h with h2 | h2
          · exact hunf (Or.inr h2)
          · exact hunf (Or.inl (by rw [hq, h2]; exact List.mem_cons_self x q))
      · have hnof : ¬(c ∈ s.queue ∨ c ∈ s.dispatchedIds) := by
          intro hf
          rcases inv.firedSrc c hf with hr | ⟨p2, hp2D, hp2⟩
          · exact wf.rootsNotKid c p hr hc
          · have : p2 = p := wf.uniqParent p2 p c hp2 hc
            rw [this] at hp2D
            exact hkD p hps hp2D
        rcases hcon with h | h
        · rcases (hmemQ c).mp h with h2 | h2
          · exact hnof (Or.inl (by rw [hq]; exact List.mem_cons_of_mem _ h2))
          · exact hxsx ((wf.uniqParent p x c hc h2) ▸ hps)
        · rcases (hmemD c).mp h with h2 | h2
          · exact hnof (Or.inr h2)
          · have h3 : p < x := wf.parent_lt p x (h2 ▸ hc)
            have h4 : x < p := wf.parent_lt x p hps
            omega
    · -- traceDisp
      intro y
      show (s.trace ++ TItem.dispatched x :: wout.2.map TItem.completeFired).count
          (TItem.dispatched y) = _
      rw [List.count_append, List.count_cons, count_map_cf_disp]
      simp only [beq_iff_eq, TItem.dispatched.injEq]
      rw [inv.traceDisp y]
      by_cases hyx : y = x
      · rw [if_pos hyx.symm, if_neg (show y ∉ s.dispatchedIds from by rw [hyx]; exact hxD0),
          if_pos ((hmemD y).mpr (Or.inr hyx))]
      · rw [if_neg (show x = y → False from fun h => hyx h.symm)]
        by_cases hyD : y ∈ s.dispatchedIds
        · rw [if_pos hyD, if_pos ((hmemD y).mpr (Or.inl hyD))]
        · rw [if_neg hyD, if_neg (show y ∉ s.dispatchedIds ++ [x] from fun hcon => by
            rcases (hmemD y).mp hcon with h | h
            · exact hyD h
            · exact hyx h)]
    · -- completeCount
      intro y
      show (s.trace ++ TItem.dispatched x :: wout.2.map TItem.completeFired).count
          (TItem.completeFired y) = _
      rw [List.count_append, List.count_cons, count_map_cf]
      simp only [beq_iff_eq]
      rw [if_neg (show TItem.dispatched x = TItem.completeFired y → False from
        fun hcon => TItem.noConfusion hcon)]
      rw [inv.completeCount y]
      have hcnt : wout.2.count y = if y ∈ wout.2 then 1 else 0 := by
        by_cases hym : y ∈ wout.2
        · rw [if_pos hym]
          have h1 : 0 < wout.2.count y := List.count_pos_iff.mpr hym
          have h2 : wout.2.count y ≤ 1 := (List.nodup_iff_count_le_one.mp hemnd) y
          omega
        · rw [if_neg hym, List.count_eq_zero]
          exact hym
      rw [hcnt]
      by_cases hym : y ∈ wout.2
      · obtain ⟨hfy, htr2y, htrFy, hyD', _⟩ := hem y hym
        rw [if_pos hym]
        have hold0 : ¬(flags y = true ∧ y ∈ s.dispatchedIds ∧ tracked s.recs y = false) := by
          rintro ⟨_, hyD0, hyun⟩
          rw [← hpres y hyD0, htr2y] at hyun
          cases hyun
        rw [if_neg hold0, if_pos ⟨hfy, hyD', htrFy⟩]
      · rw [if_neg hym]
        by_cases hyx : y = x
        · have hold0 : ¬(flags y = true ∧ y ∈ s.dispatchedIds ∧ tracked s.recs y = false) := by
            rintro ⟨_, hyD0, _⟩
            exact hxD0 (hyx ▸ hyD0)
          have hnew0 : ¬(flags y = true ∧ y ∈ s.dispatchedIds ++ [x]
              ∧ tracked wout.1 y = false) := by
            rintro ⟨hfy, _, htrF⟩
            refine hym (hback y hfy ?_ htrF)
            rw [hyx]
            exact hflagtr (hyx ▸ hfy)
          rw [if_neg hold0, if_neg hnew0]
        · by_cases hyD : y ∈ s.dispatchedIds
          · by_cases hytr : tracked s.recs y = true
            · have hold0 : ¬(flags y = true ∧ y ∈ s.dispatchedIds
                  ∧ tracked s.recs y = false) := by
                rintro ⟨_, _, hyun⟩
                rw [hytr] at hyun
                cases hyun
              have hnew0 : ¬(flags y = true ∧ y ∈ s.dispatchedIds ++ [x]
                  ∧ tracked wout.1 y = false) := by
                rintro ⟨hfy, _, htrF⟩
                exact hym (hback y hfy (by rw [hpres y hyD]; exact hytr) htrF)
              rw [if_neg hold0, if_neg hnew0]
            · rw [Bool.not_eq_true] at hytr
              have htrF : tracked wout.1 y = false := hmono y (by rw [hpres y hyD]; exact hytr)
              by_cases hfy : flags y = true
              · rw [if_pos ⟨hfy, hyD, hytr⟩, if_pos ⟨hfy, (hmemD y).mpr (Or.inl hyD), htrF⟩]
              · rw [if_neg (fun hcon => hfy hcon.1), if_neg (fun hcon => hfy hcon.1)]
          · have hold0 : ¬(flags y = true ∧ y ∈ s.dispatchedIds
                ∧ tracked s.recs y = false) := fun hcon => hyD hcon.2.1
            have hnew0 : ¬(flags y = true ∧ y ∈ s.dispatchedIds ++ [x]
                ∧ tracked wout.1 y = false) := by
              rintro ⟨_, hcon, _⟩
              rcases (hmemD y).mp hcon with h | h
              · exact hyD h
              · exact hyx h
            rw [if_neg hold0, if_neg hnew0]
    · -- traceOrder
      intro y t1 t2 htr z hrz
      have htr2 : s.trace ++ TItem.dispatched x :: wout.2.map TItem.completeFired
          = t1 ++ TItem.completeFired y :: t2 := htr
      rcases List.append_eq_append_iff.mp htr2 with ⟨a2, ha1, ha2⟩ | ⟨c2, hc1, hc2⟩
      · -- the completion item lies in the new tail
        cases a2 with
        | nil =>
          rw [List.append_nil] at ha1
          cases ha2
        | cons hd tl =>
          have hhd : TItem.dispatched x = hd := by
            have := ha2
            rw [List.cons_append] at this
            exact (List.cons.injEq _ _ _ _ ▸ this).1
          have htl : wout.2.map TItem.completeFired = tl ++ TItem.completeFired y :: t2 := by
            have := ha2
            rw [List.cons_append] at this
            exact (List.cons.injEq _ _ _ _ ▸ this).2
          have hymem : y ∈ wout.2 := by
            have h1 : TItem.completeFired y ∈ wout.2.map TItem.completeFired := by
              rw [htl]
              exact List.mem_append.mpr (Or.inr (List.mem_cons_self _ _))
            obtain ⟨e, he, heq⟩ := List.mem_map.mp h1
            exact (TItem.completeFired.inj heq) ▸ he
          obtain ⟨_, _, _, hyD', hsub⟩ := hem y hymem
          have hzD' : z ∈ s.dispatchedIds ++ [x] := hsub z hrz
          rw [ha1, ← hhd]
          rcases (hmemD z).mp hzD' with h | h
          · refine List.mem_append.mpr (Or.inl ?_)
            have hcnt := inv.traceDisp z
            rw [if_pos h] at hcnt
            exact List.count_pos_iff.mp (by omega)
          · refine List.mem_append.mpr (Or.inr ?_)
            rw [h]
            exact List.mem_cons_self _ _
      · -- the completion item lies in the old trace
        cases c2 with
        | nil =>
          rw [List.nil_append] at hc2
          cases hc2
        | cons hd tl =>
          have hhd : TItem.completeFired y = hd := by
            have := hc2
            rw [List.cons_append] at this
            exact (List.cons.injEq _ _ _ _ ▸ this).1
          have hold : s.trace = t1 ++ TItem.completeFired y :: tl := by
            rw [hc1, ← hhd]
          exact inv.traceOrder y t1 tl hold z hrz

theorem countP_gt_lt (l : List Nat) (z c : Nat) (hc : c ∈ l) (hzc : z < c) :
    l.countP (fun w => decide (c < w)) < l.countP (fun w => decide (z < w)) := by
  induction l with
  | nil => cases hc
  | cons a t ih =>
    have hmt : t.countP (fun w => decide (c < w)) ≤ t.countP (fun w => decide (z < w)) :=
      List.countP_mono_left (fun w _ hp => by
        simp only [decide_eq_true_eq] at hp ⊢
        omega)
    simp only [List.countP_cons, decide_eq_true_eq]
    rcases List.mem_cons.mp hc with he | he
    · have h1 : ¬(c < a) := by rw [← he]; exact lt_irrefl c
      have h2 : z < a := by rw [← he]; exact hzc
      rw [if_neg h1, if_pos h2]
      omega
    · have hlt := ih he
      by_cases hca : c < a
      · rw [if_pos hca, if_pos (lt_trans hzc hca)]
        omega
      · rw [if_neg hca]
        by_cases hza : z < a
        · rw [if_pos hza]
          omega
        · rw [if_neg hza]
          omega

/-- At quiescence (empty queue) no event carries a `cause` attribute any
more: a tracked event would need a tracked child with a strictly larger
identity, and the dispatched list is finite. -/
theorem no_tracked_quiescent (spawn : Nat → List Nat) (flags : Nat → Bool)
    (roots : List Nat) (wf : SpawnWF spawn roots) (s : CState)
    (inv : Inv spawn flags roots s) (hq : s.queue = []) :
    ∀ z, tracked s.recs z = false := by
  have key : ∀ n z, s.dispatchedIds.countP (fun w => decide (z < w)) ≤ n →
      tracked s.recs z = true → False := by
    intro n
    induction n with
    | zero =>
      intro z hcnt htr
      have hzD : z ∈ s.dispatchedIds := by
        rcases inv.minv.trackedFired z htr with h | h
        · rw [hq] at h; cases h
        · exact h
      have hpos := inv.minv.trackedPos z htr hzD (by simp)
      have hex : ∃ c ∈ spawn z, tracked s.recs c = true := by
        have h1 : 0 < (spawn z).countP (fun c => tracked s.recs c) := by
          unfold trackedKids at hpos
          omega
        obtain ⟨c, hc, hp⟩ := List.countP_pos_iff.mp h1
        exact ⟨c, hc, hp⟩
      obtain ⟨c, hc, hctr⟩ := hex
      have hcD : c ∈ s.dispatchedIds := by
        rcases inv.minv.trackedFired c hctr with h | h
        · rw [hq] at h; cases h
        · exact h
      have hzc : z < c := wf.parent_lt z c hc
      have h1 : 0 < s.dispatchedIds.countP (fun w => decide (z < w)) := by
        rw [List.countP_pos_iff]
        exact ⟨c, hcD, decide_eq_true hzc⟩
      omega
    | succ k ih =>
      intro z hcnt htr
      have hzD : z ∈ s.dispatchedIds := by
        rcases inv.minv.trackedFired z htr with h | h
        · rw [hq] at h; cases h
        · exact h
      have hpos := inv.minv.trackedPos z htr hzD (by simp)
      have hex : ∃ c ∈ spawn z, tracked s.recs c = true := by
        have h1 : 0 < (spawn z).countP (fun c => tracked s.recs c) := by
          unfold trackedKids at hpos
          omega
        obtain ⟨c, hc, hp⟩ := List.countP_pos_iff.mp h1
        exact ⟨c, hc, hp⟩
      obtain ⟨c, hc, hctr⟩ := hex
      have hcD : c ∈ s.dispatchedIds := by
        rcases inv.minv.trackedFired c hctr with h | h
        · rw [hq] at h; cases h
        · exact h
      have hzc : z < c := wf.parent_lt z c hc
      have hlt := countP_gt_lt s.dispatchedIds z c hcD hzc
      exact ih c (by omega) hctr
  intro z
  by_contra hcon
  rw [Bool.not_eq_false] at hcon
  exact key (s.dispatchedIds.countP (fun w => decide (z < w))) z (le_refl _) hcon

/-- The machine invariant holds in the initial state. -/
theorem init_Inv (spawn : Nat → List Nat) (flags : Nat → Bool) (roots : List Nat)
    (recs0 : Nat → CRec) (wf : SpawnWF spawn roots)
    (h0 : ∀ z, recs0 z = ⟨flags z, none, 0⟩) :
    Inv spawn flags roots (initState recs0 roots) := by
  have huntr : ∀ z, tracked recs0 z = false := by
    intro z
    rw [tracked_false_iff, h0]
  refine ⟨⟨?_, ?_, ?_, ?_, ?_, ?_, ?_, ?_, ?_⟩, wf.rootsNodup, List.nodup_nil, ?_,
    ?_, ?_, ?_, ?_, ?_, ?_⟩
  · intro z hz
    have hz2 : tracked recs0 z = true := hz
    rw [huntr z] at hz2
    cases hz2
  · intro z _
    show (recs0 z).effects = 0
    rw [h0]
  · intro z
    show (recs0 z).complete = flags z
    rw [h0]
  · intro z p hzp
    have h2 : (recs0 z).cause = some p := hzp
    rw [h0] at h2
    cases h2
  · intro z p hzp
    have h2 : (recs0 z).cause = some p := hzp
    rw [h0] at h2
    cases h2
  · intro z p hzz
    have h2 : (recs0 z).cause = some z := hzz
    rw [h0] at h2
    cases h2
  · intro z hz
    have hz2 : tracked recs0 z = true := hz
    rw [huntr z] at hz2
    cases hz2
  · intro z hz
    have hz2 : tracked recs0 z = true := hz
    rw [huntr z] at hz2
    cases hz2
  · intro p hp
    have hp2 : tracked recs0 p = true := hp
    rw [huntr p] at hp2
    cases hp2
  · intro z _ hcon
    exact absurd (show z ∈ ([] : List Nat) from hcon) (List.not_mem_nil z)
  · intro z hz
    rcases hz with hz | hz
    · exact Or.inl (show z ∈ roots from hz)
    · exact absurd (show z ∈ ([] : List Nat) from hz) (List.not_mem_nil z)
  · intro p hp
    exact absurd (show p ∈ ([] : List Nat) from hp) (List.not_mem_nil p)
  · intro p hp c hc hcon
    rcases hcon with h | h
    · exact wf.rootsNotKid c p (show c ∈ roots from h) hc
    · exact absurd (show c ∈ ([] : List Nat) from h) (List.not_mem_nil c)
  · intro y
    show ([] : List TItem).count (TItem.dispatched y)
      = if y ∈ ([] : List Nat) then 1 else 0
    rw [if_neg (List.not_mem_nil y)]
    rfl
  · intro y
    show ([] : List TItem).count (TItem.completeFired y)
      = if flags y = true ∧ y ∈ ([] : List Nat) ∧ tracked recs0 y = false then 1 else 0
    rw [if_neg (show ¬(flags y = true ∧ y ∈ ([] : List Nat)
      ∧ tracked recs0 y = false) from fun h => List.not_mem_nil y h.2.1)]
    rfl
  · intro y t1 t2 htr
    exact absurd (show ([] : List TItem) = t1 ++ TItem.completeFired y :: t2 from htr)
      (by simp)

/-- The flush loop preserves the machine invariant. -/
theorem run_Inv (spawn : Nat → List Nat) (flags : Nat → Bool) (roots : List Nat)
    (wf : SpawnWF spawn roots) :
    ∀ fuel s, Inv spawn flags roots s → Inv spawn flags roots (run spawn s fuel) := by
  intro fuel
  induction fuel with
  | zero => intro s inv; exact inv
  | succ f ih =>
    intro s inv
    cases hq : s.queue with
    | nil =>
      have : run spawn s (f + 1) = s := by
        unfold run
        rw [hq]
      rw [this]
      exact inv
    | cons x q =>
      have hred : run spawn s (f + 1)
          = match s.queue with
            | [] => s
            | _ :: _ => run spawn (step spawn s) f := rfl
      rw [hq] at hred
      rw [hred]
      exact ih (step spawn s) (step_Inv spawn flags roots wf s inv)

/-- A fired event stays fired through the flush loop. -/
theorem run_fired (spawn : Nat → List Nat) :
    ∀ fuel s x, (x ∈ s.queue ∨ x ∈ s.dispatchedIds) →
    (x ∈ (run spawn s fuel).queue ∨ x ∈ (run spawn s fuel).dispatchedIds) := by
  intro fuel
  induction fuel with
  | zero => intro s x h; exact h
  | succ f ih =>
    intro s x h
    cases hq : s.queue with
    | nil =>
      have : run spawn s (f + 1) = s := by
        unfold run
        rw [hq]
      rw [this]
      exact h
    | cons x0 q =>
      have hrw : run spawn s (f + 1)
          = match s.queue with
            | [] => s
            | _ :: _ => run spawn (step spawn s) f := rfl
      rw [hq] at hrw
      rw [hrw]
      refine ih (step spawn s) x ?_
      have hstepq : (step spawn s).queue = q ++ spawn x0 := by
        unfold step
        rw [hq]
      have hstepd : (step spawn s).dispatchedIds = s.dispatchedIds ++ [x0] := by
        unfold step
        rw [hq]
      rcases h with h | h
      · rw [hq] at h
        rcases List.mem_cons.mp h with he | he
        · right
          rw [hstepd, he]
          exact List.mem_append.mpr (Or.inr (List.mem_singleton.mpr rfl))
        · left
          rw [hstepq]
          exact List.mem_append.mpr (Or.inl he)
      · right
        rw [hstepd]
        exact List.mem_append.mpr (Or.inl h)

/-- C1: over a quiescent run of the flush loop, every root event `E` fired
with `complete=true` has `Complete(E, value)` fired exactly once; every
occurrence of that `Complete` firing in the trace is preceded by the
completed dispatch of `E` and of every event directly or transitively
caused by `E`; and the `cause`/`effects` bookkeeping of `E` has collapsed:
the attributes are deleted with the effects counter at zero. -/
theorem C1_complete_once (spawn : Nat → List Nat) (flags : Nat → Bool)
    (roots : List Nat) (recs0 : Nat → CRec) (wf : SpawnWF spawn roots)
    (h0 : ∀ z, recs0 z = ⟨flags z, none, 0⟩) (fuel : Nat) (E : Nat)
    (hE : E ∈ roots
      ∨ ∃ p, p ∈ (run spawn (initState recs0 roots) fuel).dispatchedIds ∧ E ∈ spawn p)
    (hfE : flags E = true)
    (hquiet : (run spawn (initState recs0 roots) fuel).queue = []) :
    (run spawn (initState recs0 roots) fuel).trace.count (TItem.completeFired E) = 1
    ∧ (∀ t1 t2, (run spawn (initState recs0 roots) fuel).trace
        = t1 ++ TItem.completeFired E :: t2 →
        ∀ z, Reaches spawn E z → TItem.dispatched z ∈ t1)
    ∧ ((run spawn (initState recs0 roots) fuel).recs E).cause = none
    ∧ ((run spawn (initState recs0 roots) fuel).recs E).effects = 0 := by
  have hinv := run_Inv spawn flags roots wf fuel (initState recs0 roots)
    (init_Inv spawn flags roots recs0 wf h0)
  have hED : E ∈ (run spawn (initState recs0 roots) fuel).dispatchedIds := by
    rcases hE with hE | ⟨p, hpD, hps⟩
    · have hfired := run_fired spawn fuel (initState recs0 roots) E
        (Or.inl (show E ∈ (initState recs0 roots).queue from hE))
      rw [hquiet] at hfired
      rcases hfired with h | h
      · cases h
      · exact h
    · have hkid := hinv.dispKidsFired p hpD E hps
      rw [hquiet] at hkid
      rcases hkid with h | h
      · cases h
      · exact h
  have hnt := no_tracked_quiescent spawn flags roots wf _ hinv hquiet E
  refine ⟨?_, ?_, ?_, ?_⟩
  · have hc := hinv.completeCount E
    rw [if_pos ⟨hfE, hED, hnt⟩] at hc
    exact hc
  · intro t1 t2 htr z hrz
    exact hinv.traceOrder E t1 t2 htr z hrz
  · exact (tracked_false_iff _ _).mp hnt
  · exact hinv.minv.untrackedZero E hnt

theorem C1_complete_once_witness :
    (run (fun _ => ([] : List Nat))
      (initState (fun _ => ⟨true, none, 0⟩) [0]) 1).trace.count
      (TItem.completeFired 0) = 1 :=
  (C1_complete_once (fun _ => []) (fun _ => true) [0] (fun _ => ⟨true, none, 0⟩)
    ⟨fun _ c h => absurd h (List.not_mem_nil c),
     fun _ => List.nodup_nil,
     fun _ _ c h _ => absurd h (List.not_mem_nil c),
     List.nodup_singleton 0,
     fun r _ _ h => absurd h (List.not_mem_nil r)⟩
    (fun _ => rfl) 1 0 (Or.inl (List.mem_singleton.mpr rfl)) rfl rfl).1

end Causation

end Circuits
